import Mathlib

/-!
Verification of the Titan's Pit remote transfer and path-resolution engine.

JavaScript strings are embedded as `List Char` (`JStr`); the string-library
primitives the source relies on (`trim`, `split('/')`, global character
replacement, `join('/')`) are given explicit executable definitions with the
same semantics on the inputs the code handles.
-/

/-- A JavaScript string, embedded as its character list. -/
abbrev JStr := List Char

/-- The whitespace characters relevant to `String.prototype.trim` on the
inputs handled here (space, tab, newline, carriage return, vertical tab,
form feed). -/
def isJsWhitespace (c : Char) : Bool :=
  c == ' ' || c == '\t' || c == '\n' || c == '\r' || c == '\x0b' || c == '\x0c'

/-- JavaScript `s.trim()`: strip leading and trailing whitespace. -/
def jsTrim (s : JStr) : JStr :=
  ((s.dropWhile isJsWhitespace).reverse.dropWhile isJsWhitespace).reverse

/-- JavaScript `s.split(sep)` for a one-character separator: the list of
chunks between occurrences of `sep`, keeping empty chunks. -/
def splitOnChar (sep : Char) : JStr → List JStr
  | [] => [[]]
  | c :: rest =>
    if c = sep then [] :: splitOnChar sep rest
    else
      match splitOnChar sep rest with
      | [] => [[c]]
      | piece :: pieces => (c :: piece) :: pieces

/-- JavaScript `s.replace(/x/g, y)` for one-character patterns: replace every
occurrence of `a` by `b`. -/
def replaceChar (a b : Char) (s : JStr) : JStr :=
  s.map fun c => if c = a then b else c

/-- JavaScript `parts.join(sep)`. -/
def joinWith (sep : JStr) : List JStr → JStr
  | [] => []
  | [x] => x
  | x :: y :: xs => x ++ sep ++ joinWith sep (y :: xs)

/-- JavaScript `s.toLowerCase()` on one character, for the ASCII range the
code compares against. -/
def jsToLowerChar (c : Char) : Char :=
  if 'A' ≤ c ∧ c ≤ 'Z' then Char.ofNat (c.toNat + 32) else c

/-- JavaScript `s.toLowerCase()` (ASCII range). -/
def jsToLower (s : JStr) : JStr := s.map jsToLowerChar

namespace Copyparty

/-! ## VirtualPath (server module, `normalizePath` and friends) -/

/-- One iteration of the segment-accumulation loop inside `normalizePath`:
trim the piece, drop empty and `.` pieces, pop the accumulator on `..`
(`segments.pop()` on an empty array is a no-op), push anything else. -/
def normalizeStep (segments : List JStr) (piece : JStr) : List JStr :=
  let segment := jsTrim piece
  if segment = [] ∨ segment = ['.'] then segments
  else if segment = ['.', '.'] then segments.dropLast
  else segments ++ [segment]

/-- The segment list `normalizePath` accumulates: split on `/` after turning
every `\` into `/`, then run the loop. -/
def normalizeSegments (path : JStr) : List JStr :=
  (splitOnChar '/' (replaceChar '\\' '/' path)).foldl normalizeStep []

/-- `normalizePath` from the server module: rejoin the accumulated segments
with `/`; the empty accumulation renders as the root path `/`. -/
def normalizePath (path : JStr) : JStr :=
  match normalizeSegments path with
  | [] => ['/']
  | segs => '/' :: joinWith ['/'] segs

/-- `getParentPath`: `null` for the literal root, else drop the last
non-empty `/`-separated segment and rejoin (root when none remain). -/
def getParentPath (path : JStr) : Option JStr :=
  if path = ['/'] then none
  else
    let segments := ((splitOnChar '/' path).filter (· ≠ [])).dropLast
    match segments with
    | [] => some ['/']
    | segs => some ('/' :: joinWith ['/'] segs)

/-- `getPathLeafName`: the last non-empty `/`-separated segment, `null` when
there is none. -/
def getPathLeafName (path : JStr) : Option JStr :=
  ((splitOnChar '/' path).filter (· ≠ [])).getLast?

/-- `joinPaths`: concatenate with a `/` and normalize. -/
def joinPaths (base child : JStr) : JStr :=
  normalizePath (base ++ '/' :: child)

end Copyparty

namespace Shell

/-! ## Client-side path helpers (upload/queue module) -/

/-- `normalizeInventoryPath` from the page module: same algorithm as the
server module's `normalizePath`. -/
def normalizeInventoryPath (path : JStr) : JStr :=
  match (splitOnChar '/' (replaceChar '\\' '/' path)).foldl Copyparty.normalizeStep [] with
  | [] => ['/']
  | segs => '/' :: joinWith ['/'] segs

/-- `getParentInventoryPath`: normalize first, then drop the last segment;
`null` for root. -/
def getParentInventoryPath (path : JStr) : Option JStr :=
  let normalized := normalizeInventoryPath path
  if normalized = ['/'] then none
  else
    match ((splitOnChar '/' normalized).filter (· ≠ [])).dropLast with
    | [] => some ['/']
    | segs => some ('/' :: joinWith ['/'] segs)

/-- `joinNormalizedPaths`: concatenate with a `/` and normalize. -/
def joinNormalizedPaths (base child : JStr) : JStr :=
  normalizeInventoryPath (base ++ '/' :: child)

/-- `normalizeUploadRelativePath`: the same segment accumulation, but the
result stays relative (no leading `/`; empty when no segment survives). -/
def normalizeUploadRelativePath (path : JStr) : JStr :=
  joinWith ['/'] ((splitOnChar '/' (replaceChar '\\' '/' path)).foldl Copyparty.normalizeStep [])

/-- `splitUploadRelativePath`: split a normalized relative path into its
directory part and its file name (both empty when nothing is left). -/
def splitUploadRelativePath (relativePath : JStr) : JStr × JStr :=
  let normalized := normalizeUploadRelativePath relativePath
  if normalized = [] then ([], [])
  else
    let segments := splitOnChar '/' normalized
    (joinWith ['/'] segments.dropLast, segments.getLast?.getD [])

end Shell

/-! ## Toolkit: splitting, joining, trimming -/

theorem splitOnChar_ne_nil (sep : Char) (s : JStr) : splitOnChar sep s ≠ [] := by
  induction s with
  | nil => simp [splitOnChar]
  | cons c rest ih =>
    simp only [splitOnChar]
    split
    · simp
    · cases h : splitOnChar sep rest <;> simp

theorem splitOnChar_append (sep : Char) (x y : JStr) :
    splitOnChar sep (x ++ sep :: y) = splitOnChar sep x ++ splitOnChar sep y := by
  induction x with
  | nil => simp [splitOnChar]
  | cons c rest ih =>
    by_cases hc : c = sep
    · subst hc
      simp [splitOnChar, ih]
    · cases h : splitOnChar sep rest with
      | nil => exact absurd h (splitOnChar_ne_nil sep rest)
      | cons piece pieces =>
        simp only [List.cons_append, splitOnChar, if_neg hc, List.append_eq]
        rw [ih, h]
        simp

theorem not_sep_mem_of_mem_splitOnChar {sep : Char} {s piece : JStr}
    (h : piece ∈ splitOnChar sep s) : sep ∉ piece := by
  induction s generalizing piece with
  | nil =>
    simp only [splitOnChar, List.mem_singleton] at h
    subst h; simp
  | cons c rest ih =>
    simp only [splitOnChar] at h
    split at h
    · rcases List.mem_cons.mp h with h | h
      · subst h; simp
      · exact ih h
    · rename_i hc
      cases hsplit : splitOnChar sep rest with
      | nil => exact absurd hsplit (splitOnChar_ne_nil sep rest)
      | cons p ps =>
        rw [hsplit] at h
        rcases List.mem_cons.mp h with h | h
        · subst h
          intro hmem
          rcases List.mem_cons.mp hmem with h | h
          · exact hc h.symm
          · exact ih (hsplit ▸ List.mem_cons_self p ps) h
        · exact ih (hsplit ▸ List.mem_cons_of_mem p h)

theorem mem_of_mem_splitOnChar {sep : Char} {s piece : JStr} {x : Char}
    (h : piece ∈ splitOnChar sep s) (hx : x ∈ piece) : x ∈ s := by
  induction s generalizing piece with
  | nil =>
    simp only [splitOnChar, List.mem_singleton] at h
    subst h; simp at hx
  | cons c rest ih =>
    simp only [splitOnChar] at h
    split at h
    · rcases List.mem_cons.mp h with h | h
      · subst h; simp at hx
      · exact List.mem_cons_of_mem c (ih h hx)
    · cases hsplit : splitOnChar sep rest with
      | nil => exact absurd hsplit (splitOnChar_ne_nil sep rest)
      | cons p ps =>
        rw [hsplit] at h
        rcases List.mem_cons.mp h with h | h
        · subst h
          rcases List.mem_cons.mp hx with h | h
          · subst h; exact List.mem_cons_self x rest
          · exact List.mem_cons_of_mem c (ih (hsplit ▸ List.mem_cons_self p ps) h)
        · exact List.mem_cons_of_mem c (ih (hsplit ▸ List.mem_cons_of_mem p h) hx)

theorem splitOnChar_eq_single {sep : Char} {s : JStr} (h : sep ∉ s) :
    splitOnChar sep s = [s] := by
  induction s with
  | nil => simp [splitOnChar]
  | cons c rest ih =>
    have hc : c ≠ sep := fun hc => h (hc ▸ List.mem_cons_self c rest)
    have hrest : sep ∉ rest := fun hr => h (List.mem_cons_of_mem c hr)
    simp only [splitOnChar, if_neg hc, ih hrest]

theorem joinWith_splitOnChar (sep : Char) (s : JStr) :
    joinWith [sep] (splitOnChar sep s) = s := by
  induction s with
  | nil => simp [splitOnChar, joinWith]
  | cons c rest ih =>
    simp only [splitOnChar]
    split
    · rename_i hc
      subst hc
      cases h : splitOnChar c rest with
      | nil => exact absurd h (splitOnChar_ne_nil c rest)
      | cons p ps =>
        rw [h] at ih
        simp [joinWith, ← ih]
    · cases h : splitOnChar sep rest with
      | nil => exact absurd h (splitOnChar_ne_nil sep rest)
      | cons p ps =>
        rw [h] at ih
        cases ps with
        | nil => simp_all [joinWith]
        | cons q qs => simp_all [joinWith]

theorem splitOnChar_joinWith (sep : Char) (ps : List JStr) (h : ps ≠ []) :
    splitOnChar sep (joinWith [sep] ps) = ps.flatMap (splitOnChar sep) := by
  induction ps with
  | nil => exact absurd rfl h
  | cons p rest ih =>
    cases rest with
    | nil => simp [joinWith]
    | cons q qs =>
      have : joinWith [sep] (p :: q :: qs) = p ++ sep :: joinWith [sep] (q :: qs) := by
        simp [joinWith]
      rw [this, splitOnChar_append, ih (by simp)]
      simp

theorem replaceChar_append (a b : Char) (x y : JStr) :
    replaceChar a b (x ++ y) = replaceChar a b x ++ replaceChar a b y := by
  simp [replaceChar]

theorem replaceChar_eq_self {a : Char} (b : Char) {s : JStr} (h : a ∉ s) :
    replaceChar a b s = s := by
  induction s with
  | nil => rfl
  | cons c rest ih =>
    have hc : c ≠ a := fun hc => h (hc ▸ List.mem_cons_self c rest)
    have hrest : a ∉ rest := fun hr => h (List.mem_cons_of_mem c hr)
    have ih2 := ih hrest
    simp only [replaceChar] at ih2 ⊢
    simp [hc, ih2]

theorem not_mem_replaceChar {a b : Char} (hab : a ≠ b) (s : JStr) :
    a ∉ replaceChar a b s := by
  intro h
  rcases List.mem_map.mp h with ⟨c, _, hc⟩
  by_cases hca : c = a
  · rw [if_pos hca] at hc; exact hab hc.symm
  · rw [if_neg hca] at hc; exact hca hc

theorem replaceChar_joinWith (a b : Char) (hb : b ≠ a) (ps : List JStr) :
    replaceChar a b (joinWith [b] ps) = joinWith [b] (ps.map (replaceChar a b)) := by
  induction ps with
  | nil => rfl
  | cons p rest ih =>
    cases rest with
    | nil => simp [joinWith]
    | cons q qs =>
      have hsep : replaceChar a b [b] = [b] := by
        simp [replaceChar, hb.symm]
      calc replaceChar a b (p ++ [b] ++ joinWith [b] (q :: qs))
          = replaceChar a b p ++ replaceChar a b [b] ++ replaceChar a b (joinWith [b] (q :: qs)) := by
            rw [replaceChar_append, replaceChar_append]
        _ = replaceChar a b p ++ [b] ++ joinWith [b] ((q :: qs).map (replaceChar a b)) := by
            rw [hsep, ih]
        _ = joinWith [b] ((p :: q :: qs).map (replaceChar a b)) := by
            simp [joinWith]

theorem joinWith_append_single (sep : JStr) (xs : List JStr) (y : JStr) (h : xs ≠ []) :
    joinWith sep (xs ++ [y]) = joinWith sep xs ++ sep ++ y := by
  induction xs with
  | nil => exact absurd rfl h
  | cons x rest ih =>
    cases rest with
    | nil => simp [joinWith]
    | cons q qs =>
      have hstep : joinWith sep ((x :: q :: qs) ++ [y]) =
          x ++ sep ++ joinWith sep ((q :: qs) ++ [y]) := rfl
      have hstep2 : joinWith sep (x :: q :: qs) = x ++ sep ++ joinWith sep (q :: qs) := rfl
      rw [hstep, ih (by simp), hstep2]
      simp [List.append_assoc]

theorem mem_joinWith {sep : JStr} {ps : List JStr} {x : Char}
    (h : x ∈ joinWith sep ps) : x ∈ sep ∨ ∃ p ∈ ps, x ∈ p := by
  induction ps with
  | nil => simp [joinWith] at h
  | cons p rest ih =>
    cases rest with
    | nil =>
      simp only [joinWith] at h
      exact Or.inr ⟨p, List.mem_singleton_self p, h⟩
    | cons q qs =>
      simp only [joinWith, List.append_assoc, List.mem_append] at h
      rcases h with h | h | h
      · exact Or.inr ⟨p, List.mem_cons_self p _, h⟩
      · exact Or.inl h
      · rcases ih h with h | ⟨r, hr, hx⟩
        · exact Or.inl h
        · exact Or.inr ⟨r, List.mem_cons_of_mem p hr, hx⟩

theorem jsTrim_eq_rdropWhile (s : JStr) :
    jsTrim s = List.rdropWhile isJsWhitespace (s.dropWhile isJsWhitespace) := rfl

theorem dropWhile_head_false {α : Type} {p : α → Bool} {l : List α} {c : α} {t : List α}
    (h : l.dropWhile p = c :: t) : p c = false := by
  induction l with
  | nil => simp [List.dropWhile] at h
  | cons a l ih =>
    rw [List.dropWhile_cons] at h
    split at h
    · exact ih h
    · rename_i hp
      cases h
      simpa using hp

theorem dropWhile_rdropWhile_dropWhile (s : JStr) :
    ((s.dropWhile isJsWhitespace).rdropWhile isJsWhitespace).dropWhile isJsWhitespace
      = (s.dropWhile isJsWhitespace).rdropWhile isJsWhitespace := by
  cases ht : s.dropWhile isJsWhitespace with
  | nil => simp [List.rdropWhile]
  | cons c tl =>
    have hc : isJsWhitespace c = false := dropWhile_head_false ht
    obtain ⟨rest, hr⟩ := (List.rdropWhile_prefix isJsWhitespace (c :: tl))
    cases hd : List.rdropWhile isJsWhitespace (c :: tl) with
    | nil => simp
    | cons d ds =>
      rw [hd] at hr
      have hdc : d = c := by
        have h2 : d :: (ds ++ rest) = c :: tl := by simpa using hr
        injection h2 with h3 h4
      rw [List.dropWhile_cons]
      simp [hdc, hc]

theorem jsTrim_idem (s : JStr) : jsTrim (jsTrim s) = jsTrim s := by
  rw [jsTrim_eq_rdropWhile s, jsTrim_eq_rdropWhile]
  rw [dropWhile_rdropWhile_dropWhile, List.rdropWhile_idempotent]

theorem mem_of_mem_jsTrim {s : JStr} {x : Char} (h : x ∈ jsTrim s) : x ∈ s := by
  rw [jsTrim_eq_rdropWhile] at h
  have h1 := (List.rdropWhile_prefix isJsWhitespace (s.dropWhile isJsWhitespace)).subset h
  exact (List.dropWhile_suffix isJsWhitespace).subset h1

/-! ## C6: idempotence and cleanliness of `normalizePath` -/

/-- A segment that the normalization loop can output: trim-stable, non-empty,
not `.` or `..`, free of separators. -/
def GoodSeg (s : JStr) : Prop :=
  jsTrim s = s ∧ s ≠ [] ∧ s ≠ ['.'] ∧ s ≠ ['.', '.'] ∧ '/' ∉ s ∧ '\\' ∉ s

theorem normalizeStep_trim_nil {acc : List JStr} {p : JStr} (h : jsTrim p = []) :
    Copyparty.normalizeStep acc p = acc := by
  simp [Copyparty.normalizeStep, h]

theorem normalizeStep_good {acc : List JStr} {p : JStr}
    (hacc : ∀ s ∈ acc, GoodSeg s) (hp : '/' ∉ p ∧ '\\' ∉ p) :
    ∀ s ∈ Copyparty.normalizeStep acc p, GoodSeg s := by
  intro s hs
  simp only [Copyparty.normalizeStep] at hs
  split at hs
  · exact hacc s hs
  · split at hs
    · exact hacc s (List.dropLast_sublist acc |>.subset hs)
    · rcases List.mem_append.mp hs with h | h
      · exact hacc s h
      · rename_i h1 h2
        have hseq : s = jsTrim p := List.mem_singleton.mp h
        subst hseq
        refine ⟨jsTrim_idem p, ?_, ?_, h2, ?_, ?_⟩
        · intro hc; exact h1 (Or.inl hc)
        · intro hc; exact h1 (Or.inr hc)
        · intro hc; exact hp.1 (mem_of_mem_jsTrim hc)
        · intro hc; exact hp.2 (mem_of_mem_jsTrim hc)

theorem foldl_normalizeStep_good {pieces : List JStr} {acc : List JStr}
    (hacc : ∀ s ∈ acc, GoodSeg s)
    (hp : ∀ p ∈ pieces, '/' ∉ p ∧ '\\' ∉ p) :
    ∀ s ∈ pieces.foldl Copyparty.normalizeStep acc, GoodSeg s := by
  induction pieces generalizing acc with
  | nil => simpa using hacc
  | cons p ps ih =>
    rw [List.foldl_cons]
    exact ih (normalizeStep_good hacc (hp p (List.mem_cons_self p ps)))
      (fun q hq => hp q (List.mem_cons_of_mem p hq))

theorem foldl_normalizeStep_of_good {segs : List JStr} (h : ∀ s ∈ segs, GoodSeg s) :
    ∀ acc, segs.foldl Copyparty.normalizeStep acc = acc ++ segs := by
  induction segs with
  | nil => simp
  | cons s ss ih =>
    intro acc
    have hs := h s (List.mem_cons_self s ss)
    have hstep : Copyparty.normalizeStep acc s = acc ++ [s] := by
      simp only [Copyparty.normalizeStep, hs.1]
      rw [if_neg, if_neg]
      · exact hs.2.2.2.1
      · rintro (hc | hc)
        · exact hs.2.1 hc
        · exact hs.2.2.1 hc
    rw [List.foldl_cons, hstep, ih (fun q hq => h q (List.mem_cons_of_mem s hq))]
    simp

theorem normalizeSegments_good (p : JStr) : ∀ s ∈ Copyparty.normalizeSegments p, GoodSeg s := by
  apply foldl_normalizeStep_good (by simp)
  intro piece hpiece
  constructor
  · exact fun hc => not_sep_mem_of_mem_splitOnChar hpiece hc
  · intro hc
    exact not_mem_replaceChar (by decide) p
      (mem_of_mem_splitOnChar hpiece hc)

theorem normalizeSegments_cons_slash (s : JStr) :
    Copyparty.normalizeSegments ('/' :: s) = Copyparty.normalizeSegments s := by
  unfold Copyparty.normalizeSegments
  have h1 : replaceChar '\\' '/' ('/' :: s) = '/' :: replaceChar '\\' '/' s := by
    simp [replaceChar]
  rw [h1]
  have h2 : splitOnChar '/' ('/' :: replaceChar '\\' '/' s)
      = [] :: splitOnChar '/' (replaceChar '\\' '/' s) := by
    simp [splitOnChar]
  rw [h2, List.foldl_cons, normalizeStep_trim_nil (show jsTrim [] = [] from rfl)]

theorem flatMap_splitOnChar_of_good {segs : List JStr}
    (h : ∀ s ∈ segs, '/' ∉ s) : segs.flatMap (splitOnChar '/') = segs := by
  induction segs with
  | nil => simp
  | cons s ss ih =>
    rw [List.flatMap_cons, splitOnChar_eq_single (h s (List.mem_cons_self s ss)),
      ih (fun q hq => h q (List.mem_cons_of_mem s hq))]
    simp

theorem normalizeSegments_render {segs : List JStr} (h : ∀ s ∈ segs, GoodSeg s)
    (hne : segs ≠ []) :
    Copyparty.normalizeSegments ('/' :: joinWith ['/'] segs) = segs := by
  rw [normalizeSegments_cons_slash]
  unfold Copyparty.normalizeSegments
  have hbs : '\\' ∉ joinWith ['/'] segs := by
    intro hc
    rcases mem_joinWith hc with hc | ⟨q, hq, hc⟩
    · simp at hc
    · exact (h q hq).2.2.2.2.2 hc
  rw [replaceChar_eq_self '/' hbs, splitOnChar_joinWith '/' segs hne,
    flatMap_splitOnChar_of_good (fun s hs => (h s hs).2.2.2.2.1),
    foldl_normalizeStep_of_good h]
  simp

theorem normalizePath_idem (p : JStr) :
    Copyparty.normalizePath (Copyparty.normalizePath p) = Copyparty.normalizePath p := by
  unfold Copyparty.normalizePath
  cases hsegs : Copyparty.normalizeSegments p with
  | nil =>
    have : Copyparty.normalizeSegments ['/'] = [] := by decide
    simp [this]
  | cons s ss =>
    have hgood : ∀ q ∈ s :: ss, GoodSeg q := fun q hq =>
      normalizeSegments_good p q (hsegs ▸ hq)
    rw [normalizeSegments_render hgood (by simp)]

/-- C6: `normalizePath` is idempotent and its output segments are never
empty, `.` or `..`; a pure `..` chain from root normalizes to `/`. -/
theorem normalizePath_idempotent_and_clean (p : JStr) :
    Copyparty.normalizePath (Copyparty.normalizePath p) = Copyparty.normalizePath p
    ∧ (∀ s ∈ Copyparty.normalizeSegments p, s ≠ [] ∧ s ≠ ['.'] ∧ s ≠ ['.', '.'])
    ∧ Copyparty.normalizePath ("/../../..".toList) = "/".toList := by
  refine ⟨normalizePath_idem p, ?_, by decide⟩
  intro s hs
  have h := normalizeSegments_good p s hs
  exact ⟨h.2.1, h.2.2.1, h.2.2.2.1⟩

/-! ## C7: `join (parent p) (leaf p) = normalize p` for non-root `p` -/

theorem flatMap_after_map {α β γ : Type} (f : α → β) (g : β → List γ) (l : List α) :
    (l.map f).flatMap g = l.flatMap fun x => g (f x) := by
  induction l with
  | nil => rfl
  | cons x xs ih => simp [ih]

theorem foldl_normalizeStep_all_trim_nil {pieces : List JStr}
    (h : ∀ q ∈ pieces, jsTrim q = []) :
    ∀ acc, pieces.foldl Copyparty.normalizeStep acc = acc := by
  induction pieces with
  | nil => simp
  | cons q qs ih =>
    intro acc
    rw [List.foldl_cons, normalizeStep_trim_nil (h q (List.mem_cons_self q qs))]
    exact ih (fun r hr => h r (List.mem_cons_of_mem q hr)) acc

theorem foldl_normalizeStep_flatMap_filter (g : JStr → List JStr)
    (hg : g [] = [[]]) (P : List JStr) (acc : List JStr) :
    ((P.filter (· ≠ [])).flatMap g).foldl Copyparty.normalizeStep acc
      = (P.flatMap g).foldl Copyparty.normalizeStep acc := by
  induction P generalizing acc with
  | nil => simp
  | cons x P ih =>
    by_cases hx : x = []
    · subst hx
      rw [List.flatMap_cons, List.foldl_append, hg]
      have hstep : List.foldl Copyparty.normalizeStep acc [[]] = acc := by
        simp [normalizeStep_trim_nil (show jsTrim [] = [] from rfl)]
      rw [hstep]
      have hfilter : ([] :: P).filter (fun q => decide (q ≠ [])) = P.filter (fun q => decide (q ≠ [])) := by
        simp
      simpa [hfilter] using ih acc
    · have hfilter : (x :: P).filter (fun q => decide (q ≠ [])) = x :: P.filter (fun q => decide (q ≠ [])) := by
        simp [hx]
      simp only [hfilter, List.flatMap_cons, List.foldl_append]
      exact ih _

theorem normalizeSegments_joinWith_filter (p : JStr)
    (hR : (splitOnChar '/' p).filter (· ≠ []) ≠ []) :
    Copyparty.normalizeSegments (joinWith ['/'] ((splitOnChar '/' p).filter (· ≠ [])))
      = Copyparty.normalizeSegments p := by
  unfold Copyparty.normalizeSegments
  rw [replaceChar_joinWith '\\' '/' (by decide), splitOnChar_joinWith '/' _ (by simpa using hR),
    flatMap_after_map]
  conv_rhs => rw [← joinWith_splitOnChar '/' p]
  rw [replaceChar_joinWith '\\' '/' (by decide),
    splitOnChar_joinWith '/' _ (by simp [splitOnChar_ne_nil]), flatMap_after_map]
  exact foldl_normalizeStep_flatMap_filter _ rfl (splitOnChar '/' p) []

theorem normalizeSegments_eq_nil_of_filter_nil (p : JStr)
    (h : (splitOnChar '/' p).filter (· ≠ []) = []) :
    Copyparty.normalizeSegments p = [] := by
  have hall : ∀ piece ∈ splitOnChar '/' p, piece = [] := by
    intro piece hpiece
    by_contra hne
    have : piece ∈ (splitOnChar '/' p).filter (· ≠ []) :=
      List.mem_filter.mpr ⟨hpiece, by simpa using hne⟩
    rw [h] at this
    simp at this
  have hchars : ∀ x ∈ p, x = '/' := by
    intro x hx
    rw [← joinWith_splitOnChar '/' p] at hx
    rcases mem_joinWith hx with hx | ⟨q, hq, hx⟩
    · simpa using hx
    · rw [hall q hq] at hx
      simp at hx
  have hrepl : replaceChar '\\' '/' p = p :=
    replaceChar_eq_self '/' (fun hc => by simpa using hchars '\\' hc)
  unfold Copyparty.normalizeSegments
  rw [hrepl]
  exact foldl_normalizeStep_all_trim_nil
    (fun q hq => by rw [hall q hq]; rfl) []

theorem normalizePath_congr {x y : JStr}
    (h : Copyparty.normalizeSegments x = Copyparty.normalizeSegments y) :
    Copyparty.normalizePath x = Copyparty.normalizePath y := by
  unfold Copyparty.normalizePath
  rw [h]

/-- C7: for every path whose normalization is not root, rejoining the parent
path with the leaf name normalizes back to the path's normalization. -/
theorem join_parent_leaf_eq_normalize (p : JStr)
    (h : Copyparty.normalizePath p ≠ ['/']) :
    ∃ parent leaf, Copyparty.getParentPath p = some parent
      ∧ Copyparty.getPathLeafName p = some leaf
      ∧ Copyparty.joinPaths parent leaf = Copyparty.normalizePath p := by
  have hRne : (splitOnChar '/' p).filter (· ≠ []) ≠ [] := by
    intro hnil
    apply h
    unfold Copyparty.normalizePath
    rw [normalizeSegments_eq_nil_of_filter_nil p hnil]
  have hpne : p ≠ ['/'] := fun hp => h (by rw [hp]; decide)
  set R := (splitOnChar '/' p).filter (· ≠ []) with hRdef
  set leaf := R.getLast hRne with hleaf
  have hsplitR : R.dropLast ++ [leaf] = R := List.dropLast_append_getLast hRne
  have hleafname : Copyparty.getPathLeafName p = some leaf := by
    unfold Copyparty.getPathLeafName
    rw [← hRdef, List.getLast?_eq_getLast R hRne]
  have hAprime : Copyparty.normalizeSegments (joinWith ['/'] R) = Copyparty.normalizeSegments p :=
    normalizeSegments_joinWith_filter p hRne
  cases hdrop : R.dropLast with
  | nil =>
    refine ⟨['/'], leaf, ?_, hleafname, ?_⟩
    · unfold Copyparty.getParentPath
      rw [if_neg hpne, ← hRdef, hdrop]
    · have hRleaf : R = [leaf] := by rw [← hsplitR, hdrop]; rfl
      unfold Copyparty.joinPaths
      apply normalizePath_congr
      have hstr : (['/'] : JStr) ++ '/' :: leaf = '/' :: '/' :: leaf := rfl
      rw [hstr, normalizeSegments_cons_slash, normalizeSegments_cons_slash]
      rw [hRleaf] at hAprime
      simpa [joinWith] using hAprime
  | cons d ds =>
    refine ⟨'/' :: joinWith ['/'] (d :: ds), leaf, ?_, hleafname, ?_⟩
    · unfold Copyparty.getParentPath
      rw [if_neg hpne, ← hRdef, hdrop]
    · unfold Copyparty.joinPaths
      apply normalizePath_congr
      have hstr : ('/' :: joinWith ['/'] (d :: ds)) ++ '/' :: leaf
          = '/' :: joinWith ['/'] R := by
        have := joinWith_append_single ['/'] (d :: ds) leaf (by simp)
        rw [← hsplitR, hdrop, this]
        simp
      rw [hstr, normalizeSegments_cons_slash]
      exact hAprime

/-- The C7 relation holds at the concrete non-root path `/a/b`. -/
theorem join_parent_leaf_eq_normalize_witness :
    ∃ parent leaf, Copyparty.getParentPath ("/a/b".toList) = some parent
      ∧ Copyparty.getPathLeafName ("/a/b".toList) = some leaf
      ∧ Copyparty.joinPaths parent leaf = Copyparty.normalizePath ("/a/b".toList) :=
  join_parent_leaf_eq_normalize ("/a/b".toList) (by decide)

/-! ## JSON values as the listing client sees them -/

/-- A JavaScript value reached through parsed JSON (plus `undefined` for
absent fields). Finite numbers are embedded as integers; `nonFinite` stands
for `NaN`/`±Infinity`, which `Number.isFinite` rejects. -/
inductive RawValue where
  | str (s : JStr)
  | num (n : Int)
  | nonFinite
  | boolV (b : Bool)
  | null
  | undefined
  | arr (elems : List RawValue)
  | obj (fields : List (JStr × RawValue))

/-- JavaScript property access `v[name]` for the fields the client reads:
objects look the key up, everything else yields `undefined`. -/
def RawValue.getField (v : RawValue) (name : JStr) : RawValue :=
  match v with
  | .obj fields =>
    match fields.lookup name with
    | some x => x
    | none => .undefined
  | _ => .undefined

namespace Copyparty

/-- `asString`: a string passes through, anything else becomes `''`. -/
def asString (value : RawValue) : JStr :=
  match value with
  | .str s => s
  | _ => []

/-- `asNumber`: a finite number passes through, anything else becomes `0`. -/
def asNumber (value : RawValue) : Int :=
  match value with
  | .num n => n
  | _ => 0

end Copyparty

/-- JavaScript `s.lastIndexOf(c)` for a one-character needle: the index of
the last occurrence, `-1` when absent. -/
def lastIndexOf (s : JStr) (c : Char) : Int :=
  ((s.reverse.dropWhile (· ≠ c)).length : Int) - 1

theorem dropWhile_ne_nil_of_not_mem {s : JStr} {c : Char} (h : c ∉ s) :
    s.dropWhile (· ≠ c) = [] := by
  rw [List.dropWhile_eq_nil_iff]
  intro x hx
  simp only [ne_eq, decide_eq_true_eq]
  intro hxc
  exact h (hxc ▸ hx)

theorem lastIndexOf_of_not_mem {s : JStr} {c : Char} (h : c ∉ s) :
    lastIndexOf s c = -1 := by
  unfold lastIndexOf
  rw [dropWhile_ne_nil_of_not_mem (fun hc => h (List.mem_reverse.mp hc))]
  rfl

theorem lastIndexOf_of_decomp {u v : JStr} {c : Char} (hv : c ∉ v) :
    lastIndexOf (u ++ c :: v) c = (u.length : Int) := by
  unfold lastIndexOf
  have hrev : (u ++ c :: v).reverse = v.reverse ++ c :: u.reverse := by
    simp
  have hdropv : v.reverse.dropWhile (· ≠ c) = [] :=
    dropWhile_ne_nil_of_not_mem (fun hc => hv (List.mem_reverse.mp hc))
  have hcons : (c :: u.reverse).dropWhile (· ≠ c) = c :: u.reverse := by
    rw [List.dropWhile_cons]
    simp
  rw [hrev, List.dropWhile_append, hdropv, hcons]
  simp only [List.isEmpty_nil, ite_true, List.length_cons, List.length_reverse]
  push_cast
  omega

theorem exists_last_decomp {s : JStr} {c : Char} (h : c ∈ s) :
    ∃ u v, s = u ++ c :: v ∧ c ∉ v := by
  have hrev : c ∈ s.reverse := List.mem_reverse.mpr h
  have hne : s.reverse.dropWhile (· ≠ c) ≠ [] := by
    rw [Ne, List.dropWhile_eq_nil_iff]
    intro hall
    have h2 := hall c hrev
    simp at h2
  cases hd : s.reverse.dropWhile (· ≠ c) with
  | nil => exact absurd hd hne
  | cons w tail =>
    have hw : w = c := by
      have h3 := dropWhile_head_false hd
      simpa using h3
    refine ⟨tail.reverse, (s.reverse.takeWhile (· ≠ c)).reverse, ?_, ?_⟩
    · have hsplit : s.reverse.takeWhile (· ≠ c) ++ s.reverse.dropWhile (· ≠ c) = s.reverse :=
        List.takeWhile_append_dropWhile _ _
      rw [hd, hw] at hsplit
      have h4 := congrArg List.reverse hsplit
      simpa using h4.symm
    · intro hc
      have h5 := List.mem_takeWhile_imp (List.mem_reverse.mp hc)
      simp at h5

/-! ## C8: extension resolution -/

namespace Copyparty

/-- `resolveExtension`: prefer the trimmed, lowercased explicit field unless
blank or a sentinel (`---`, `%`); otherwise derive from the segment after
the name's last dot, provided that dot is neither the first nor the last
character. -/
def resolveExtension (rawExtension : RawValue) (name : JStr) : Option JStr :=
  let extension := jsTrim (jsToLower (asString rawExtension))
  if extension ≠ [] ∧ extension ≠ "---".toList ∧ extension ≠ "%".toList then
    some extension
  else
    let dotIndex := lastIndexOf name '.'
    if dotIndex ≤ 0 ∨ dotIndex ≥ (name.length : Int) - 1 then
      none
    else
      some (jsToLower (name.drop (dotIndex.toNat + 1)))

end Copyparty

/-- C8 counterexample: the explicit extension field `" "` is non-empty and
equals no sentinel, yet it is not returned lowercased — trimming empties it
and derivation on the name `noext` yields no extension. -/
theorem resolveExtension_whitespace_counterexample :
    " ".toList ≠ ([] : JStr)
    ∧ " ".toList ≠ "---".toList
    ∧ " ".toList ≠ "%".toList
    ∧ jsToLower (" ".toList) = " ".toList
    ∧ Copyparty.resolveExtension (RawValue.str (" ".toList)) ("noext".toList) = none := by
  decide

/-- C8 (amended): an explicit extension field that is still non-empty after
lowercasing and trimming is returned in that normalized form unless it is a
sentinel (`---` or `%`); otherwise the result is the lowercased segment
after the name's last interior dot (a decomposition `stem ++ "." ++ ext`
with non-empty dot-free `ext` and non-empty `stem`), and `none` when no such
decomposition exists; `archive.tar.gz` derives `gz`, `.bashrc` and `noext`
derive nothing. -/
theorem resolveExtension_spec (e : RawValue) (name : JStr) :
    (∀ x, x = jsTrim (jsToLower (Copyparty.asString e)) →
      (x ≠ [] ∧ x ≠ "---".toList ∧ x ≠ "%".toList →
        Copyparty.resolveExtension e name = some x)
      ∧ (¬(x ≠ [] ∧ x ≠ "---".toList ∧ x ≠ "%".toList) →
        ((∃ stem ext, name = stem ++ '.' :: ext ∧ stem ≠ [] ∧ ext ≠ [] ∧ '.' ∉ ext
            ∧ Copyparty.resolveExtension e name = some (jsToLower ext))
          ∨ (Copyparty.resolveExtension e name = none
            ∧ ¬∃ stem ext, name = stem ++ '.' :: ext ∧ stem ≠ [] ∧ ext ≠ [] ∧ '.' ∉ ext))))
    ∧ Copyparty.resolveExtension (RawValue.str []) ("archive.tar.gz".toList) = some ("gz".toList)
    ∧ Copyparty.resolveExtension (RawValue.str []) (".bashrc".toList) = none
    ∧ Copyparty.resolveExtension (RawValue.str []) ("noext".toList) = none := by
  refine ⟨?_, by decide, by decide, by decide⟩
  intro x hx
  constructor
  · intro hcond
    unfold Copyparty.resolveExtension
    rw [← hx, if_pos hcond]
  · intro hcond
    by_cases hdec : ∃ stem ext, name = stem ++ '.' :: ext ∧ stem ≠ [] ∧ ext ≠ [] ∧ '.' ∉ ext
    · left
      obtain ⟨stem, ext, hname, hstem, hext, hdot⟩ := hdec
      refine ⟨stem, ext, hname, hstem, hext, hdot, ?_⟩
      unfold Copyparty.resolveExtension
      rw [← hx, if_neg hcond]
      have hidx : lastIndexOf name '.' = (stem.length : Int) := by
        rw [hname]; exact lastIndexOf_of_decomp hdot
      have hlen : name.length = stem.length + 1 + ext.length := by
        rw [hname]; simp; omega
      have hbranch : ¬(lastIndexOf name '.' ≤ 0
          ∨ lastIndexOf name '.' ≥ (name.length : Int) - 1) := by
        rw [hidx]
        push_neg
        constructor
        · have : 0 < stem.length := List.length_pos.mpr hstem
          exact_mod_cast this
        · have : 0 < ext.length := List.length_pos.mpr hext
          rw [hlen]
          push_cast
          omega
      rw [if_neg hbranch]
      have hdrop : name.drop ((lastIndexOf name '.').toNat + 1) = ext := by
        rw [hidx, hname]
        have h1 : (stem.length : Int).toNat = stem.length := by simp
        rw [h1, ← List.drop_drop, List.drop_left]
        rfl
      rw [hdrop]
    · right
      refine ⟨?_, hdec⟩
      unfold Copyparty.resolveExtension
      rw [← hx, if_neg hcond]
      rw [if_pos]
      by_cases hmem : '.' ∈ name
      · obtain ⟨u, v, huv, hv⟩ := exists_last_decomp hmem
        have hidx : lastIndexOf name '.' = (u.length : Int) := by
          rw [huv]; exact lastIndexOf_of_decomp hv
        have hlen : name.length = u.length + 1 + v.length := by
          rw [huv]; simp; omega
        by_cases hu : u = []
        · left
          rw [hidx, hu]
          simp
        · by_cases hvnil : v = []
          · right
            rw [hidx, hlen, hvnil]
            push_cast
            simp
          · exact absurd ⟨u, v, huv, hu, hvnil, hv⟩ hdec
      · left
        rw [lastIndexOf_of_not_mem hmem]
        decide

/-! ## Platform model: URLs, collation, encoding -/

/-- A thrown JavaScript error as the modules observe it: a `DOMException`
named `AbortError` (from an aborted fetch), or an `Error` with a message. -/
inductive JsError where
  | abortError
  | error (message : JStr)
deriving DecidableEq

/-- The components of a WHATWG `URL` object that the code manipulates. -/
structure Url where
  protocol : JStr
  hostname : JStr
  port : JStr
  pathname : JStr
  search : List (JStr × JStr)
  hash : JStr
deriving DecidableEq

/-- `url.searchParams.set(name, value)`. -/
def Url.setParam (u : Url) (name value : JStr) : Url :=
  if (u.search.lookup name).isSome then
    { u with search := u.search.map fun kv => if kv.1 = name then (name, value) else kv }
  else
    { u with search := u.search ++ [(name, value)] }

/-- `url.searchParams.has(name)`. -/
def Url.hasParam (u : Url) (name : JStr) : Bool :=
  (u.search.lookup name).isSome

/-- The query-string rendering inside `url.toString()`. -/
def renderQuery (params : List (JStr × JStr)) : JStr :=
  match params with
  | [] => []
  | ps => '?' :: joinWith ['&'] (ps.map fun kv => kv.1 ++ '=' :: kv.2)

/-- `url.toString()`. -/
def Url.toStr (u : Url) : JStr :=
  u.protocol ++ "//".toList ++ u.hostname
    ++ (if u.port = [] then [] else ':' :: u.port)
    ++ u.pathname ++ renderQuery u.search ++ u.hash

/-- The runtime primitives the modules call, passed in as an explicit model:
WHATWG URL parsing (`new URL(abs)`, `none` models the thrown `TypeError`),
relative resolution (`new URL(rel, base)`), `Intl.Collator` comparison,
`Intl.DateTimeFormat` rendering, and URI component (en/de)coding. -/
structure JsPlatform where
  parseUrl : JStr → Option Url
  resolveRelative : JStr → Url → Option Url
  collate : JStr → JStr → Ordering
  formatDate : Int → JStr
  encodeURIComponent : JStr → JStr
  decodeURIComponent : JStr → Option JStr

/-- A concrete URL parser for plain `scheme://host/path` URLs, used to
evaluate the model at concrete inputs. -/
def parseSimpleUrl (s : JStr) : Option Url :=
  let scheme := s.takeWhile (fun c => c != ':')
  let rest := s.drop scheme.length
  match rest with
  | ':' :: '/' :: '/' :: tail =>
    if scheme = [] then none
    else
      let host := tail.takeWhile (fun c => c != '/')
      let path := tail.drop host.length
      if host = [] then none
      else
        some { protocol := scheme ++ [':'], hostname := host, port := [],
               pathname := if path = [] then ['/'] else path, search := [], hash := [] }
  | _ => none

/-- A concrete platform instance for evaluating the model at concrete
inputs. -/
def demoPlatform : JsPlatform where
  parseUrl := parseSimpleUrl
  resolveRelative := fun rel base =>
    if rel = [] then some base
    else if rel.head? = some '/' then
      some { base with pathname := rel, search := [], hash := [] }
    else some { base with pathname := base.pathname ++ rel, search := [], hash := [] }
  collate := fun a b => compare a.length b.length
  formatDate := fun _ => []
  encodeURIComponent := fun s => s
  decodeURIComponent := fun s => some s

/-! ## ListingClient: mapping raw items (C4) -/

/-- The `'dir' | 'file'` tag. -/
inductive EntryKind where
  | dir
  | file
deriving DecidableEq

namespace Copyparty

/-- `cleanItemName`: trim, then strip one trailing slash. -/
def cleanItemName (name : JStr) : JStr :=
  let trimmed := jsTrim name
  if trimmed = [] then []
  else if trimmed.getLast? = some '/' then trimmed.dropLast else trimmed

/-- `extractNameFromHref`: strip fragment, query and trailing slashes, take
the last non-empty path segment, percent-decode it (falling back to the raw
segment when decoding throws). -/
def extractNameFromHref (plat : JsPlatform) (rawHref : JStr) : JStr :=
  if rawHref = [] then []
  else
    let withoutHash := ((splitOnChar '#' rawHref).head?.getD [])
    let withoutQuery := ((splitOnChar '?' withoutHash).head?.getD [])
    let withoutTrailingSlash := withoutQuery.rdropWhile (fun c => c == '/')
    let segment := ((splitOnChar '/' withoutTrailingSlash).filter (· ≠ [])).getLast?.getD []
    if segment = [] then []
    else
      match plat.decodeURIComponent segment with
      | some decoded => decoded
      | none => segment

/-- `toTagRecord`: keep the string-valued entries of a plain object. -/
def toTagRecord (value : RawValue) : List (JStr × JStr) :=
  match value with
  | .obj fields =>
    fields.foldl (fun acc kv =>
      match kv.2 with
      | .str s => acc ++ [(kv.1, s)]
      | _ => acc) []
  | _ => []

/-- `formatModifiedTimestamp`: empty for non-positive stamps; values above
`10_000_000_000` are treated as milliseconds, smaller ones as seconds. -/
def formatModifiedTimestamp (plat : JsPlatform) (value : Int) : JStr :=
  if value ≤ 0 then []
  else
    let epochMs := if value > 10000000000 then value else value * 1000
    plat.formatDate epochMs

/-- The argument record of `buildItemHref`. -/
structure BuildItemHrefArgs where
  baseUrl : JStr
  rootPath : JStr
  currentPath : JStr
  rawHref : JStr
  fallbackName : JStr
  kind : EntryKind
  password : JStr

/-- `buildItemHref`: resolve the raw href against the current listing
directory's URL, appending the password query parameter when absent;
resolution failure falls back to the raw value, but a failure to parse the
base URL itself propagates as a thrown error. -/
def buildItemHref (plat : JsPlatform) (args : BuildItemHrefArgs) : Except JsError JStr :=
  match plat.parseUrl args.baseUrl with
  | none => .error (.error ("Invalid URL".toList))
  | some base =>
    let currentDirPath := joinPaths base.pathname (joinPaths args.rootPath args.currentPath)
    let base := { base with
      pathname := if currentDirPath.getLast? = some '/' then currentDirPath
        else currentDirPath ++ ['/'] }
    let hrefValue := jsTrim args.rawHref
    let hrefValue :=
      if hrefValue = [] then
        let encoded := plat.encodeURIComponent args.fallbackName
        if args.kind = .dir then encoded ++ ['/'] else encoded
      else hrefValue
    .ok (match plat.resolveRelative hrefValue base with
      | none => hrefValue
      | some resolved =>
        let resolved :=
          if args.password ≠ [] ∧ ¬resolved.hasParam ("pw".toList) then
            resolved.setParam ("pw".toList) args.password
          else resolved
        resolved.toStr)

/-- One mapped listing entry. -/
structure InventoryEntry where
  kind : EntryKind
  name : JStr
  href : JStr
  size : Int
  modified : JStr
  modifiedTs : Int
  extension : Option JStr
  tags : List (JStr × JStr)
  nextPath : Option JStr
deriving DecidableEq

/-- The context record `mapItem` receives. -/
structure MapContext where
  currentPath : JStr
  rootPath : JStr
  baseUrl : JStr
  password : JStr

/-- `mapItem`: map one raw listing item to a typed entry. -/
def mapItem (plat : JsPlatform) (item : RawValue) (kind : EntryKind)
    (context : MapContext) : Except JsError InventoryEntry :=
  let rawName := cleanItemName (asString (item.getField ("name".toList)))
  let rawHref := asString (item.getField ("href".toList))
  let inferredName := cleanItemName (extractNameFromHref plat rawHref)
  let safeName :=
    if rawName ≠ [] then rawName
    else if inferredName ≠ [] then inferredName
    else "unnamed".toList
  let modifiedTs := asNumber (item.getField ("ts".toList))
  match buildItemHref plat
      { baseUrl := context.baseUrl, rootPath := context.rootPath,
        currentPath := context.currentPath, rawHref := rawHref,
        fallbackName := safeName, kind := kind, password := context.password } with
  | .error e => .error e
  | .ok resolvedHref =>
    .ok {
      kind := kind
      name := safeName
      href := resolvedHref
      size := asNumber (item.getField ("sz".toList))
      modified :=
        (let dt := asString (item.getField ("dt".toList))
         if dt ≠ [] then dt else formatModifiedTimestamp plat modifiedTs)
      modifiedTs := modifiedTs
      extension := resolveExtension (item.getField ("ext".toList)) safeName
      tags := toTagRecord (item.getField ("tags".toList))
      nextPath := if kind = .dir then some (joinPaths context.currentPath safeName) else none }

end Copyparty

/-- C4 counterexample: a listing item whose `sz` field is the finite number
`-5` maps to an entry whose size is `-5`, which is negative. -/
theorem mapItem_negative_size_counterexample :
    ∃ entry, Copyparty.mapItem demoPlatform
        (RawValue.obj [("sz".toList, RawValue.num (-5))]) EntryKind.file
        { currentPath := "/".toList, rootPath := "/".toList,
          baseUrl := "http://h".toList, password := [] }
      = Except.ok entry ∧ entry.size = -5 ∧ entry.size < 0 := by
  refine ⟨_, rfl, by decide, by decide⟩

/-- C4 (amended): a mapped entry's size is exactly `asNumber` of the raw
`sz` field — the raw value itself when the field is a finite number (which
may be negative), and `0` otherwise; so the size is nonnegative whenever
the raw `sz` field is not a negative finite number. -/
theorem mapItem_size_spec (plat : JsPlatform) (item : RawValue) (kind : EntryKind)
    (context : Copyparty.MapContext) :
    (∀ entry, Copyparty.mapItem plat item kind context = Except.ok entry →
      entry.size = Copyparty.asNumber (item.getField ("sz".toList)))
    ∧ (∀ n, item.getField ("sz".toList) = RawValue.num n →
      Copyparty.asNumber (item.getField ("sz".toList)) = n)
    ∧ ((∀ n, item.getField ("sz".toList) = RawValue.num n → 0 ≤ n) →
      0 ≤ Copyparty.asNumber (item.getField ("sz".toList))) := by
  refine ⟨?_, ?_, ?_⟩
  · intro entry h
    unfold Copyparty.mapItem at h
    simp only at h
    split at h
    · exact absurd h (by simp)
    · injection h with h2
      rw [← h2]
  · intro n h
    rw [h]
    rfl
  · intro h
    cases hv : item.getField ("sz".toList) with
    | num n => exact h n hv
    | str s => exact le_refl 0
    | nonFinite => exact le_refl 0
    | boolV b => exact le_refl 0
    | null => exact le_refl 0
    | undefined => exact le_refl 0
    | arr xs => exact le_refl 0
    | obj fs => exact le_refl 0

/-! ## Decimal rendering (for HTTP status messages and rename suffixes) -/

/-- The little-endian decimal digits of a natural number, with explicit
fuel so the definition reduces structurally; `n` units always suffice
because the argument shrinks by a factor of ten each step. -/
def natDigitsRevGo : Nat → Nat → List Char
  | 0, n => [Nat.digitChar n]
  | fuel + 1, n =>
    if n < 10 then [Nat.digitChar n]
    else Nat.digitChar (n % 10) :: natDigitsRevGo fuel (n / 10)

/-- The little-endian decimal digits of a natural number. -/
def natDigitsRev (n : Nat) : List Char := natDigitsRevGo n n

/-- JavaScript number-to-string conversion for a natural number. -/
def natToJStr (n : Nat) : JStr := (natDigitsRev n).reverse

/-! ## C9: `getInventoryData` failure handling -/

namespace Copyparty

/-- The environment configuration the server module reads (raw, untrimmed
values; `none` models an unset variable). -/
structure CopypartyEnv where
  baseUrl : Option JStr
  publicBaseUrl : Option JStr
  rootPath : Option JStr
  password : Option JStr
  cookie : Option JStr
  timeoutMs : Option JStr

/-- `Number.parseInt(s, 10)`: skip leading whitespace and an optional sign,
then read a digit prefix; `none` models `NaN`. -/
def parseIntPrefix (s : JStr) : Option Int :=
  let t := s.dropWhile isJsWhitespace
  let signAndRest : Int × JStr :=
    match t with
    | '-' :: r => (-1, r)
    | '+' :: r => (1, r)
    | r => (1, r)
  let digits := signAndRest.2.takeWhile (fun c => c.isDigit)
  if digits = [] then none
  else some (signAndRest.1 * (digits.foldl (fun acc c => acc * 10 + (c.toNat - 48)) 0 : Nat))

/-- `parsePositiveNumber`: parse the env string, keeping only finite,
strictly positive values. -/
def parsePositiveNumber (value : Option JStr) : Option Int :=
  match value with
  | none => none
  | some v =>
    if v = [] then none
    else
      match parseIntPrefix v with
      | none => none
      | some parsed => if parsed > 0 then some parsed else none

/-- `isLoopbackHost`. -/
def isLoopbackHost (hostname : JStr) : Bool :=
  let normalized := jsToLower hostname
  normalized = "localhost".toList || normalized = "127.0.0.1".toList
    || normalized = "::1".toList || normalized = "[::1]".toList
    || ".localhost".toList.isSuffixOf normalized

/-- `resolvePublicBaseUrl`: an explicit override wins; otherwise, when the
configured host is loopback and the inbound origin is known, only the
hostname is rewritten; any parse failure falls back to the base URL. -/
def resolvePublicBaseUrl (plat : JsPlatform) (publicBaseUrlEnv : Option JStr)
    (baseUrl : JStr) (requestOrigin : Option JStr) : JStr :=
  let explicitPublicBase := (publicBaseUrlEnv.map jsTrim).getD []
  if explicitPublicBase ≠ [] then explicitPublicBase
  else
    match requestOrigin with
    | none => baseUrl
    | some origin =>
      if origin = [] then baseUrl
      else
        match plat.parseUrl baseUrl with
        | none => baseUrl
        | some internal =>
          if ¬isLoopbackHost internal.hostname then baseUrl
          else
            match plat.parseUrl origin with
            | none => baseUrl
            | some incoming => Url.toStr { internal with hostname := incoming.hostname }

/-- `buildListingUrl`: join the upstream path onto the base URL's path, add
the password and the `ls` flag; a base-URL parse failure throws. -/
def buildListingUrl (plat : JsPlatform) (passwordEnv : Option JStr)
    (baseUrl virtualPath : JStr) : Except JsError Url :=
  match plat.parseUrl baseUrl with
  | none => .error (.error ("Invalid URL".toList))
  | some url =>
    let url := { url with pathname := joinPaths url.pathname virtualPath }
    let password := (passwordEnv.map jsTrim).getD []
    let url := if password ≠ [] then url.setParam ("pw".toList) password else url
    .ok (url.setParam ("ls".toList) [])

/-- `buildUploadUrl`. -/
def buildUploadUrl (plat : JsPlatform) (baseUrl virtualPath password : JStr) :
    Except JsError JStr :=
  match plat.parseUrl baseUrl with
  | none => .error (.error ("Invalid URL".toList))
  | some url =>
    let url := { url with pathname := joinPaths url.pathname virtualPath }
    let url := if password ≠ [] then url.setParam ("pw".toList) password else url
    .ok url.toStr

/-- `asItemArray`: a non-array yields `[]`; array entries that are not
truthy objects are dropped (`null` has `typeof 'object'` but is falsy;
arrays are objects and pass the filter). -/
def asItemArray (value : RawValue) : List RawValue :=
  match value with
  | .arr elems =>
    elems.filter fun entry =>
      match entry with
      | .obj _ => true
      | .arr _ => true
      | _ => false
  | _ => []

/-- `resolveErrorMessage`: an abort is reported as a timeout; an error's
non-empty message passes through; everything else gets the generic text. -/
def resolveErrorMessage (error : JsError) : JStr :=
  match error with
  | .abortError => "Copyparty request timed out.".toList
  | .error msg => if msg ≠ [] then msg else "Unable to load listing from Copyparty.".toList

/-- The outcome of the single listing fetch: the deadline timer aborted the
request, the transport failed, or a response arrived whose body either
parses as JSON or does not. -/
inductive FetchResult where
  | timeout
  | netError (message : JStr)
  | response (status : Nat) (json : Except Unit RawValue)

/-- The result record `getInventoryData` resolves with. -/
structure InventoryData where
  configured : Bool
  currentPath : JStr
  parentPath : Option JStr
  rootPath : JStr
  uploadUrl : JStr
  directories : List InventoryEntry
  files : List InventoryEntry
  account : JStr
  serverInfo : JStr
  error : Option JStr
  totalBytes : Int

/-- `rawItems.map(mapItem)` with the first thrown error propagating. -/
def mapItems (plat : JsPlatform) (items : List RawValue) (kind : EntryKind)
    (context : MapContext) : Except JsError (List InventoryEntry) :=
  match items with
  | [] => .ok []
  | item :: rest =>
    match mapItem plat item kind context with
    | .error e => .error e
    | .ok entry =>
      match mapItems plat rest kind context with
      | .error e => .error e
      | .ok entries => .ok (entry :: entries)

/-- `.sort((a, b) => collator.compare(a.name, b.name))`. -/
def sortEntries (plat : JsPlatform) (entries : List InventoryEntry) : List InventoryEntry :=
  entries.mergeSort fun a b => plat.collate a.name b.name != Ordering.gt

/-- `getInventoryData`: resolve configuration, fetch and map the listing;
every failure inside the `try` block is converted into an error-carrying
result by the `catch` block (which itself rebuilds the upload URL). -/
def getInventoryData (plat : JsPlatform) (env : CopypartyEnv)
    (requestedPath : Option JStr) (requestOrigin : Option JStr)
    (fetchResult : FetchResult) : Except JsError InventoryData :=
  let currentPath := normalizePath (requestedPath.getD ("/".toList))
  let parentPath := getParentPath currentPath
  let rootPath := normalizePath (env.rootPath.getD ("/".toList))
  let baseUrl := (env.baseUrl.map jsTrim).getD []
  if baseUrl = [] then
    .ok { configured := false, currentPath := currentPath, parentPath := parentPath,
          rootPath := rootPath, uploadUrl := [], directories := [], files := [],
          account := [], serverInfo := [], error := none, totalBytes := 0 }
  else
    let upstreamPath := joinPaths rootPath currentPath
    let password := (env.password.map jsTrim).getD []
    let publicBaseUrl := resolvePublicBaseUrl plat env.publicBaseUrl baseUrl requestOrigin
    let tryResult : Except JsError InventoryData :=
      match buildListingUrl plat env.password baseUrl upstreamPath with
      | .error e => .error e
      | .ok _listingUrl =>
        match buildUploadUrl plat publicBaseUrl upstreamPath password with
        | .error e => .error e
        | .ok uploadUrl =>
          match fetchResult with
          | .timeout => .error .abortError
          | .netError msg => .error (.error msg)
          | .response status json =>
            if ¬(200 ≤ status ∧ status < 300) then
              .error (.error ("Copyparty responded with HTTP ".toList
                ++ natToJStr status ++ ".".toList))
            else
              match json with
              | .error _ =>
                .error (.error
                  "Copyparty did not return JSON. Verify `?ls` access and credentials.".toList)
              | .ok payload =>
                let rawDirs := asItemArray (payload.getField ("dirs".toList))
                let rawFiles := asItemArray (payload.getField ("files".toList))
                let context : MapContext :=
                  { currentPath := currentPath, rootPath := rootPath,
                    baseUrl := publicBaseUrl, password := password }
                match mapItems plat rawDirs .dir context, mapItems plat rawFiles .file context with
                | .error e, _ => .error e
                | .ok _, .error e => .error e
                | .ok dirEntries, .ok fileEntries =>
                  let directories := sortEntries plat dirEntries
                  let files := sortEntries plat fileEntries
                  let totalBytes := files.foldl (fun sum file => sum + file.size) 0
                  .ok { configured := true, currentPath := currentPath,
                        parentPath := parentPath, rootPath := rootPath,
                        uploadUrl := uploadUrl, directories := directories, files := files,
                        account := asString (payload.getField ("acct".toList)),
                        serverInfo := asString (payload.getField ("srvinf".toList)),
                        error := none, totalBytes := totalBytes }
    match tryResult with
    | .ok result => .ok result
    | .error e =>
      match buildUploadUrl plat publicBaseUrl upstreamPath password with
      | .error e2 => .error e2
      | .ok uploadUrl =>
        .ok { configured := true, currentPath := currentPath, parentPath := parentPath,
              rootPath := rootPath, uploadUrl := uploadUrl, directories := [], files := [],
              account := [], serverInfo := [], error := some (resolveErrorMessage e),
              totalBytes := 0 }

end Copyparty

/-- The four fetch-level failures of the listing claim: timeout, network
error, non-2xx status, unparsable JSON body. -/
def Copyparty.FetchResult.isFailure : Copyparty.FetchResult → Prop
  | .timeout => True
  | .netError _ => True
  | .response status json => ¬(200 ≤ status ∧ status < 300) ∨ json = Except.error ()

/-- C9: with no backend configured, `getInventoryData` resolves with
`configured = false` and a `null` error; once configured (and the request
URLs constructible, as they must be for a fetch to happen at all), every
fetch-level failure — timeout, network error, non-2xx status, unparsable
body — resolves (never throws) with `configured = true`, empty listings,
`totalBytes = 0` and a non-null error message, a timeout carrying the
distinct message `Copyparty request timed out.`. -/
theorem getInventoryData_failure_contract (plat : JsPlatform)
    (env : Copyparty.CopypartyEnv) (requestedPath requestOrigin : Option JStr)
    (fetchResult : Copyparty.FetchResult) :
    ((env.baseUrl.map jsTrim).getD [] = [] →
      ∃ out, Copyparty.getInventoryData plat env requestedPath requestOrigin fetchResult
          = Except.ok out
        ∧ out.configured = false ∧ out.error = none)
    ∧ ((env.baseUrl.map jsTrim).getD [] ≠ [] →
      ∀ lu uu,
        Copyparty.buildListingUrl plat env.password ((env.baseUrl.map jsTrim).getD [])
            (Copyparty.joinPaths (Copyparty.normalizePath (env.rootPath.getD ("/".toList)))
              (Copyparty.normalizePath (requestedPath.getD ("/".toList)))) = Except.ok lu →
        Copyparty.buildUploadUrl plat
            (Copyparty.resolvePublicBaseUrl plat env.publicBaseUrl
              ((env.baseUrl.map jsTrim).getD []) requestOrigin)
            (Copyparty.joinPaths (Copyparty.normalizePath (env.rootPath.getD ("/".toList)))
              (Copyparty.normalizePath (requestedPath.getD ("/".toList))))
            ((env.password.map jsTrim).getD []) = Except.ok uu →
        (fetchResult.isFailure →
          ∃ out, Copyparty.getInventoryData plat env requestedPath requestOrigin fetchResult
              = Except.ok out
            ∧ out.configured = true ∧ out.directories = [] ∧ out.files = []
            ∧ out.totalBytes = 0 ∧ out.error ≠ none)
        ∧ (fetchResult = Copyparty.FetchResult.timeout →
          ∃ out, Copyparty.getInventoryData plat env requestedPath requestOrigin fetchResult
              = Except.ok out
            ∧ out.error = some ("Copyparty request timed out.".toList))) := by
  constructor
  · intro hempty
    unfold Copyparty.getInventoryData
    rw [if_pos hempty]
    exact ⟨_, rfl, rfl, rfl⟩
  · intro hne lu uu hlu huu
    constructor
    · intro hfail
      unfold Copyparty.getInventoryData
      rw [if_neg hne]
      simp only []
      rw [hlu, huu]
      cases fetchResult with
      | timeout =>
        exact ⟨_, rfl, rfl, rfl, rfl, rfl, by simp⟩
      | netError msg =>
        exact ⟨_, rfl, rfl, rfl, rfl, rfl, by simp⟩
      | response status json =>
        simp only []
        rcases hfail with hstatus | hjson
        · rw [if_pos hstatus]
          exact ⟨_, rfl, rfl, rfl, rfl, rfl, by simp⟩
        · by_cases hstatus : ¬(200 ≤ status ∧ status < 300)
          · rw [if_pos hstatus]
            exact ⟨_, rfl, rfl, rfl, rfl, rfl, by simp⟩
          · rw [if_neg hstatus, hjson]
            exact ⟨_, rfl, rfl, rfl, rfl, rfl, by simp⟩
    · intro htimeout
      subst htimeout
      unfold Copyparty.getInventoryData
      rw [if_neg hne]
      simp only []
      rw [hlu, huu]
      exact ⟨_, rfl, rfl⟩

/-- The C9 contract evaluated at a concrete configured environment whose
fetch timed out. -/
theorem getInventoryData_failure_contract_witness :
    ∃ out, Copyparty.getInventoryData demoPlatform
        { baseUrl := some ("http://h".toList), publicBaseUrl := none, rootPath := none,
          password := none, cookie := none, timeoutMs := none }
        none none Copyparty.FetchResult.timeout = Except.ok out
      ∧ out.error = some ("Copyparty request timed out.".toList) :=
  ((getInventoryData_failure_contract demoPlatform
      { baseUrl := some ("http://h".toList), publicBaseUrl := none, rootPath := none,
        password := none, cookie := none, timeoutMs := none }
      none none Copyparty.FetchResult.timeout).2
    (by decide)
    { protocol := "http:".toList, hostname := "h".toList, port := [],
      pathname := "/".toList, search := [("ls".toList, [])], hash := [] }
    ("http://h/".toList)
    rfl rfl).2 rfl

/-! ## MutationClient (C2, C3): connection, scoped requests, four operations

Each operation issues at most one network request; the model returns the
operation's outcome together with the request it issued, if any. -/

namespace Copyparty

/-- The per-operation connection record. -/
structure CopypartyConnection where
  baseUrl : JStr
  rootPath : JStr
  password : JStr
  cookie : JStr
  timeoutMs : Int

/-- `getCopypartyConnection`: throws when no base URL is configured. -/
def getCopypartyConnection (env : CopypartyEnv) : Except JsError CopypartyConnection :=
  let baseUrl := (env.baseUrl.map jsTrim).getD []
  if baseUrl = [] then .error (.error ("Copyparty is not configured.".toList))
  else
    .ok { baseUrl := baseUrl,
          rootPath := normalizePath (env.rootPath.getD ("/".toList)),
          password := (env.password.map jsTrim).getD [],
          cookie := (env.cookie.map jsTrim).getD [],
          timeoutMs := (parsePositiveNumber env.timeoutMs).getD 8000 }

/-- `buildScopedUrl`: root-prefix the normalized target path onto the base
URL, attaching the password query parameter. -/
def buildScopedUrl (plat : JsPlatform) (connection : CopypartyConnection)
    (targetPath : JStr) : Except JsError Url :=
  let upstreamPath := joinPaths connection.rootPath (normalizePath targetPath)
  match plat.parseUrl connection.baseUrl with
  | none => .error (.error ("Invalid URL".toList))
  | some url =>
    let url := { url with pathname := joinPaths url.pathname upstreamPath }
    .ok (if connection.password ≠ [] then url.setParam ("pw".toList) connection.password else url)

/-- `headers.set(name, value)` (header names are case-insensitive and kept
lowercased, as the `Headers` class does). -/
def setHeader (headers : List (JStr × JStr)) (name value : JStr) : List (JStr × JStr) :=
  let key := jsToLower name
  if (headers.lookup key).isSome then
    headers.map fun kv => if kv.1 = key then (key, value) else kv
  else headers ++ [(key, value)]

/-- `headers.delete(name)`. -/
def deleteHeader (headers : List (JStr × JStr)) (name : JStr) : List (JStr × JStr) :=
  headers.filter fun kv => kv.1 ≠ jsToLower name

/-- `headers.get(name)`. -/
def getHeader (headers : List (JStr × JStr)) (name : JStr) : Option JStr :=
  headers.lookup (jsToLower name)

/-- One outbound request as `fetchCopyparty` issues it. `virtualPath` is a
model-level observation recording which virtual path the request targets. -/
structure NetRequest where
  method : JStr
  url : Url
  virtualPath : JStr
  headers : List (JStr × JStr)

/-- The mutation fetch outcome: timer abort, transport failure, or a
response carrying a status and a body text. -/
inductive MutationFetchResult where
  | timeout
  | netError (message : JStr)
  | response (status : Nat) (bodyText : JStr)

/-- `fetchCopyparty`: force `Origin`/`Referer` to the Copyparty origin,
merge the configured cookie with the forwarded request cookie, issue the
request under the connection timeout. -/
def fetchCopyparty (connection : CopypartyConnection)
    (respond : NetRequest → MutationFetchResult) (url : Url) (method : JStr)
    (initHeaders : List (JStr × JStr)) (virtualPath : JStr)
    (requestCookie : Option JStr) : Except JsError (Nat × JStr) × NetRequest :=
  let headers := initHeaders.map fun kv => (jsToLower kv.1, kv.2)
  let targetOrigin := url.protocol ++ "//".toList ++ url.hostname
    ++ (if url.port = [] then [] else ':' :: url.port)
  let headers := deleteHeader headers ("origin".toList)
  let headers := deleteHeader headers ("referer".toList)
  let headers := setHeader headers ("Origin".toList) targetOrigin
  let headers := setHeader headers ("Referer".toList) (targetOrigin ++ "/".toList)
  let cookieHeader :=
    joinWith ("; ".toList) (([connection.cookie, requestCookie.getD []]).filter (· ≠ []))
  let headers := if cookieHeader ≠ [] then setHeader headers ("Cookie".toList) cookieHeader
    else headers
  let req : NetRequest :=
    { method := method, url := url, virtualPath := virtualPath, headers := headers }
  let result : Except JsError (Nat × JStr) :=
    match respond req with
    | .timeout => .error .abortError
    | .netError msg => .error (.error msg)
    | .response status bodyText => .ok (status, bodyText)
  (result, req)

/-- `replace(/\s+/g, ' ')`: collapse each whitespace run to one space. -/
def collapseWhitespace (s : JStr) : JStr :=
  match s with
  | [] => []
  | c :: rest =>
    if isJsWhitespace c then ' ' :: collapseWhitespace (rest.dropWhile isJsWhitespace)
    else c :: collapseWhitespace rest
termination_by s.length
decreasing_by
  · simp_wf
    have h1 := (List.dropWhile_suffix (l := rest) isJsWhitespace).sublist.length_le
    omega
  · simp_wf

/-- A case-insensitive substring test (`/needle/i.test(haystack)`). -/
def matchesCI (needle haystack : JStr) : Bool :=
  decide (jsToLower needle <:+: jsToLower haystack)

/-- `buildHttpErrorMessage`: collapse and trim the body, special-case the
401 move-access and 422 unprocessable-entity hints, else quote a truncated
snippet. -/
def buildHttpErrorMessage (errPrefix : JStr) (status : Nat) (bodyText : JStr) : JStr :=
  let details := jsTrim (collapseWhitespace bodyText)
  if details = [] then errPrefix ++ ": HTTP ".toList ++ natToJStr status ++ ".".toList
  else if status = 401 ∧ matchesCI ("move-access".toList) details then
    errPrefix ++ (": HTTP 401. Copyparty denied move-access for this path. "
      ++ "Grant move permission in Copyparty or set COPYPARTY_PASSWORD/COPYPARTY_COOKIE "
      ++ "to credentials with move rights.").toList
  else if status = 422 ∧ matchesCI ("unprocessable entity".toList) details then
    errPrefix ++ (": HTTP 422. Copyparty rejected the path as invalid. "
      ++ "For WebDAV MOVE/COPY, ensure Destination does not include query parameters.").toList
  else
    errPrefix ++ ": HTTP ".toList ++ natToJStr status ++ " (".toList
      ++ details.take 220 ++ ").".toList

/-- `sanitizeLeafName`: non-blank after trimming, not `.`/`..`, free of
slashes. -/
def sanitizeLeafName (value label : JStr) : Except JsError JStr :=
  let cleaned := jsTrim value
  if cleaned = [] then .error (.error (label ++ " is required.".toList))
  else if cleaned = ['.'] ∨ cleaned = ['.', '.'] then
    .error (.error (label ++ " is invalid.".toList))
  else if '/' ∈ cleaned ∨ '\\' ∈ cleaned then
    .error (.error (label ++ " cannot include slashes.".toList))
  else .ok cleaned

/-- `ensureTrailingSlash`. -/
def ensureTrailingSlash (value : JStr) : JStr :=
  if value.getLast? = some '/' then value else value ++ ['/']

/-- `moveScopedPath`: strip query and fragment from the destination before
sending it as the `Destination` header of a `MOVE` with `Overwrite: T`. -/
def moveScopedPath (plat : JsPlatform) (connection : CopypartyConnection)
    (respond : NetRequest → MutationFetchResult) (sourcePath destinationPath : JStr)
    (requestCookie : Option JStr) (errorPrefix : JStr) :
    Except JsError Unit × Option NetRequest :=
  match buildScopedUrl plat connection sourcePath with
  | .error e => (.error e, none)
  | .ok sourceUrl =>
    match buildScopedUrl plat connection destinationPath with
    | .error e => (.error e, none)
    | .ok destinationUrl0 =>
      let destinationUrl := { destinationUrl0 with search := [], hash := [] }
      let out := fetchCopyparty connection respond sourceUrl ("MOVE".toList)
        [("Destination".toList, destinationUrl.toStr), ("Overwrite".toList, "T".toList)]
        sourcePath requestCookie
      match out.1 with
      | .error e => (.error e, some out.2)
      | .ok (status, bodyText) =>
        if 200 ≤ status ∧ status < 300 then (.ok (), some out.2)
        else (.error (.error (buildHttpErrorMessage errorPrefix status bodyText)), some out.2)

/-- `deleteInventoryPath`. -/
def deleteInventoryPath (plat : JsPlatform) (env : CopypartyEnv)
    (respond : NetRequest → MutationFetchResult) (targetPath : JStr)
    (requestCookie : Option JStr) : Except JsError Unit × Option NetRequest :=
  match getCopypartyConnection env with
  | .error e => (.error e, none)
  | .ok connection =>
    let normalizedPath := normalizePath targetPath
    if normalizedPath = ['/'] then
      (.error (.error ("Cannot delete root path.".toList)), none)
    else
      match buildScopedUrl plat connection normalizedPath with
      | .error e => (.error e, none)
      | .ok url =>
        let out := fetchCopyparty connection respond url ("DELETE".toList) []
          normalizedPath requestCookie
        match out.1 with
        | .error e => (.error e, some out.2)
        | .ok (status, bodyText) =>
          if 200 ≤ status ∧ status < 300 then (.ok (), some out.2)
          else
            (.error (.error (buildHttpErrorMessage ("Delete failed".toList) status bodyText)),
             some out.2)

/-- `renameInventoryPath`. -/
def renameInventoryPath (plat : JsPlatform) (env : CopypartyEnv)
    (respond : NetRequest → MutationFetchResult) (targetPath newName : JStr)
    (requestCookie : Option JStr) : Except JsError Unit × Option NetRequest :=
  match getCopypartyConnection env with
  | .error e => (.error e, none)
  | .ok connection =>
    let normalizedPath := normalizePath targetPath
    if normalizedPath = ['/'] then
      (.error (.error ("Cannot rename root path.".toList)), none)
    else
      match sanitizeLeafName newName ("New name".toList) with
      | .error e => (.error e, none)
      | .ok safeName =>
        match getParentPath normalizedPath with
        | none => (.error (.error ("Cannot rename root path.".toList)), none)
        | some parentPath =>
          let destinationPath := joinPaths parentPath safeName
          if destinationPath = normalizedPath then (.ok (), none)
          else
            moveScopedPath plat connection respond normalizedPath destinationPath
              requestCookie ("Rename failed".toList)

/-- `moveInventoryPath`. -/
def moveInventoryPath (plat : JsPlatform) (env : CopypartyEnv)
    (respond : NetRequest → MutationFetchResult) (targetPath destinationPath : JStr)
    (requestCookie : Option JStr) : Except JsError Unit × Option NetRequest :=
  match getCopypartyConnection env with
  | .error e => (.error e, none)
  | .ok connection =>
    let normalizedPath := normalizePath targetPath
    if normalizedPath = ['/'] then
      (.error (.error ("Cannot move root path.".toList)), none)
    else
      match getPathLeafName normalizedPath with
      | none => (.error (.error ("Invalid source path.".toList)), none)
      | some sourceName =>
        let normalizedDestinationDirectory := normalizePath destinationPath
        let resolvedDestinationPath := joinPaths normalizedDestinationDirectory sourceName
        if resolvedDestinationPath = normalizedPath then (.ok (), none)
        else
          moveScopedPath plat connection respond normalizedPath resolvedDestinationPath
            requestCookie ("Move failed".toList)

/-- `createInventoryDirectory`: `MKCOL` on the joined path with a trailing
slash; 405/409 is reported as "already exists". -/
def createInventoryDirectory (plat : JsPlatform) (env : CopypartyEnv)
    (respond : NetRequest → MutationFetchResult) (parentPath folderName : JStr)
    (requestCookie : Option JStr) : Except JsError Unit × Option NetRequest :=
  match getCopypartyConnection env with
  | .error e => (.error e, none)
  | .ok connection =>
    match sanitizeLeafName folderName ("Folder name".toList) with
    | .error e => (.error e, none)
    | .ok safeFolderName =>
      let scopedPath := joinPaths (normalizePath parentPath) safeFolderName
      match buildScopedUrl plat connection scopedPath with
      | .error e => (.error e, none)
      | .ok url0 =>
        let url := { url0 with pathname := ensureTrailingSlash url0.pathname }
        let out := fetchCopyparty connection respond url ("MKCOL".toList) []
          scopedPath requestCookie
        match out.1 with
        | .error e => (.error e, some out.2)
        | .ok (status, bodyText) =>
          if 200 ≤ status ∧ status < 300 then (.ok (), some out.2)
          else if status = 405 ∨ status = 409 then
            (.error (.error ("Folder already exists.".toList)), some out.2)
          else
            (.error (.error (buildHttpErrorMessage ("Create folder failed".toList)
              status bodyText)), some out.2)

end Copyparty

/-! ## C2: root-path mutation attempts are rejected before any request -/

theorem normalizeStep_push {acc : List JStr} {s : JStr} (hs : GoodSeg s) :
    Copyparty.normalizeStep acc s = acc ++ [s] := by
  simp only [Copyparty.normalizeStep, hs.1]
  rw [if_neg, if_neg]
  · exact hs.2.2.2.1
  · rintro (hc | hc)
    · exact hs.2.1 hc
    · exact hs.2.2.1 hc

theorem normalizeSegments_append_good (p : JStr) {s : JStr} (hs : GoodSeg s) :
    Copyparty.normalizeSegments (p ++ '/' :: s) = Copyparty.normalizeSegments p ++ [s] := by
  unfold Copyparty.normalizeSegments
  have hrepl : replaceChar '\\' '/' (p ++ '/' :: s) = replaceChar '\\' '/' p ++ '/' :: s := by
    rw [show (p ++ '/' :: s) = p ++ ('/' :: s) from rfl, replaceChar_append]
    congr 1
    have hcons : replaceChar '\\' '/' ('/' :: s) = '/' :: replaceChar '\\' '/' s := by
      simp [replaceChar]
    rw [hcons, replaceChar_eq_self '/' hs.2.2.2.2.2]
  rw [hrepl, splitOnChar_append, splitOnChar_eq_single hs.2.2.2.2.1, List.foldl_append]
  simp only [List.foldl_cons, List.foldl_nil]
  exact normalizeStep_push hs

theorem joinPaths_ne_root (p : JStr) {s : JStr} (hs : GoodSeg s) :
    Copyparty.joinPaths p s ≠ ['/'] := by
  unfold Copyparty.joinPaths Copyparty.normalizePath
  rw [normalizeSegments_append_good p hs]
  cases h : Copyparty.normalizeSegments p with
  | nil =>
    simp only [List.nil_append]
    intro hcontra
    have hs2 : ('/' : Char) :: s = ['/'] := hcontra
    injection hs2 with h1 h2
    exact hs.2.1 h2
  | cons d ds =>
    simp only [List.cons_append]
    intro hcontra
    have hne : ds ++ [s] ≠ [] := by simp
    cases h2 : ds ++ [s] with
    | nil => exact hne h2
    | cons y t =>
      rw [h2] at hcontra
      have hj : joinWith ['/'] (d :: y :: t) = d ++ ['/'] ++ joinWith ['/'] (y :: t) := rfl
      rw [hj] at hcontra
      injection hcontra with h3 h4
      rcases List.append_eq_nil.mp h4 with ⟨h5, h6⟩
      rcases List.append_eq_nil.mp h5 with ⟨-, h7⟩
      simp at h7

theorem sanitizeLeafName_good {value label safeName : JStr}
    (h : Copyparty.sanitizeLeafName value label = Except.ok safeName) : GoodSeg safeName := by
  unfold Copyparty.sanitizeLeafName at h
  simp only [] at h
  split at h
  · exact absurd h (by simp)
  · split at h
    · exact absurd h (by simp)
    · split at h
      · exact absurd h (by simp)
      · rename_i h1 h2 h3
        injection h with h4
        subst h4
        refine ⟨jsTrim_idem value, h1, ?_, ?_, ?_, ?_⟩
        · exact fun hc => h2 (Or.inl hc)
        · exact fun hc => h2 (Or.inr hc)
        · exact fun hc => h3 (Or.inl hc)
        · exact fun hc => h3 (Or.inr hc)

/-- C2: `deleteInventoryPath`, `renameInventoryPath` and `moveInventoryPath`
reject a target that normalizes to the root path `/` by failing with an
error and issuing no network request; `createInventoryDirectory` rejects an
invalid folder name with no request, and every request it does issue
targets a non-root virtual path (the validated leaf joined beneath the
parent), so no mutation ever reaches the network with the root as its
target. -/
theorem mutations_reject_root (plat : JsPlatform) (env : Copyparty.CopypartyEnv)
    (respond : Copyparty.NetRequest → Copyparty.MutationFetchResult)
    (targetPath newName destinationPath parentPath folderName : JStr)
    (requestCookie : Option JStr) :
    (Copyparty.normalizePath targetPath = ['/'] →
      (∃ e, Copyparty.deleteInventoryPath plat env respond targetPath requestCookie
          = (Except.error e, none))
      ∧ (∃ e, Copyparty.renameInventoryPath plat env respond targetPath newName requestCookie
          = (Except.error e, none))
      ∧ (∃ e, Copyparty.moveInventoryPath plat env respond targetPath destinationPath
            requestCookie
          = (Except.error e, none)))
    ∧ (∀ e, Copyparty.sanitizeLeafName folderName ("Folder name".toList) = Except.error e →
        ∃ e2, Copyparty.createInventoryDirectory plat env respond parentPath folderName
            requestCookie
          = (Except.error e2, none))
    ∧ (∀ result req,
        Copyparty.createInventoryDirectory plat env respond parentPath folderName requestCookie
          = (result, some req) → req.virtualPath ≠ ['/']) := by
  refine ⟨?_, ?_, ?_⟩
  · intro hroot
    refine ⟨?_, ?_, ?_⟩
    · unfold Copyparty.deleteInventoryPath
      cases hconn : Copyparty.getCopypartyConnection env with
      | error e => exact ⟨e, rfl⟩
      | ok connection =>
        simp only []
        rw [if_pos hroot]
        exact ⟨_, rfl⟩
    · unfold Copyparty.renameInventoryPath
      cases hconn : Copyparty.getCopypartyConnection env with
      | error e => exact ⟨e, rfl⟩
      | ok connection =>
        simp only []
        rw [if_pos hroot]
        exact ⟨_, rfl⟩
    · unfold Copyparty.moveInventoryPath
      cases hconn : Copyparty.getCopypartyConnection env with
      | error e => exact ⟨e, rfl⟩
      | ok connection =>
        simp only []
        rw [if_pos hroot]
        exact ⟨_, rfl⟩
  · intro e hsan
    unfold Copyparty.createInventoryDirectory
    cases hconn : Copyparty.getCopypartyConnection env with
    | error e2 => exact ⟨e2, rfl⟩
    | ok connection =>
      simp only []
      rw [hsan]
      exact ⟨e, rfl⟩
  · intro result req heq
    unfold Copyparty.createInventoryDirectory at heq
    cases hconn : Copyparty.getCopypartyConnection env with
    | error e => rw [hconn] at heq; simp at heq
    | ok connection =>
      rw [hconn] at heq
      simp only [] at heq
      cases hsan : Copyparty.sanitizeLeafName folderName ("Folder name".toList) with
      | error e => rw [hsan] at heq; simp at heq
      | ok safeName =>
        rw [hsan] at heq
        simp only [] at heq
        cases hurl : Copyparty.buildScopedUrl plat connection
            (Copyparty.joinPaths (Copyparty.normalizePath parentPath) safeName) with
        | error e => rw [hurl] at heq; simp at heq
        | ok url0 =>
          rw [hurl] at heq
          simp only [] at heq
          split at heq
          · simp only [Prod.mk.injEq, Option.some.injEq] at heq
            obtain ⟨-, h2⟩ := heq
            subst h2
            exact joinPaths_ne_root (Copyparty.normalizePath parentPath)
              (sanitizeLeafName_good hsan)
          · split at heq
            · simp only [Prod.mk.injEq, Option.some.injEq] at heq
              obtain ⟨-, h2⟩ := heq
              subst h2
              exact joinPaths_ne_root (Copyparty.normalizePath parentPath)
                (sanitizeLeafName_good hsan)
            · split at heq
              · simp only [Prod.mk.injEq, Option.some.injEq] at heq
                obtain ⟨-, h2⟩ := heq
                subst h2
                exact joinPaths_ne_root (Copyparty.normalizePath parentPath)
                  (sanitizeLeafName_good hsan)
              · simp only [Prod.mk.injEq, Option.some.injEq] at heq
                obtain ⟨-, h2⟩ := heq
                subst h2
                exact joinPaths_ne_root (Copyparty.normalizePath parentPath)
                  (sanitizeLeafName_good hsan)

/-! ## C3: cookie forwarding at the action endpoint -/

namespace FilesApi

/-- `shouldForwardRequestCookies`: true only when a backend base URL is
configured, both URLs parse, and the protocol and hostname both match. -/
def shouldForwardRequestCookies (parseUrl : JStr → Option Url)
    (requestUrl : JStr) (copypartyBaseUrl : Option JStr) : Bool :=
  match copypartyBaseUrl with
  | none => false
  | some b =>
    if b = [] then false
    else
      match parseUrl requestUrl, parseUrl b with
      | some requestOrigin, some copypartyOrigin =>
        decide (requestOrigin.protocol = copypartyOrigin.protocol
          ∧ requestOrigin.hostname = copypartyOrigin.hostname)
      | _, _ => false

/-- The action handler's `requestCookie`: the inbound `Cookie` header when
forwarding is on, the empty string otherwise. -/
def actionRequestCookie (parseUrl : JStr → Option Url) (requestUrl : JStr)
    (copypartyBaseUrl : Option JStr) (inboundCookie : Option JStr) : JStr :=
  if shouldForwardRequestCookies parseUrl requestUrl copypartyBaseUrl then
    inboundCookie.getD []
  else []

end FilesApi

theorem lookup_map_replace_self {β : Type} (hs : List (JStr × β)) (key : JStr) (v : β) :
    List.lookup key (hs.map fun kv => if kv.1 = key then (key, v) else kv)
      = if (List.lookup key hs).isSome then some v else none := by
  induction hs with
  | nil => rfl
  | cons kv rest ih =>
    rw [List.map_cons]
    by_cases h : kv.1 = key
    · rw [if_pos h]
      have hbeq : (key == kv.1) = true := by rw [beq_iff_eq]; exact h.symm
      have hself : (key == key) = true := by rw [beq_iff_eq]
      simp only [List.lookup, hbeq, hself]
      simp
    · rw [if_neg h]
      have hbeq : (key == kv.1) = false := by
        rw [beq_eq_false_iff_ne]; exact fun hc => h hc.symm
      simp only [List.lookup, hbeq, ih]

theorem lookup_map_replace_ne {β : Type} {key1 key2 : JStr} (hs : List (JStr × β)) (v : β)
    (hne : key1 ≠ key2) :
    List.lookup key1 (hs.map fun kv => if kv.1 = key2 then (key2, v) else kv)
      = List.lookup key1 hs := by
  induction hs with
  | nil => rfl
  | cons kv rest ih =>
    rw [List.map_cons]
    by_cases h : kv.1 = key2
    · rw [if_pos h]
      have h1 : (key1 == key2) = false := by rw [beq_eq_false_iff_ne]; exact hne
      have h2 : (key1 == kv.1) = false := by
        rw [beq_eq_false_iff_ne]; rw [h]; exact hne
      simp only [List.lookup, h1, h2, ih]
    · rw [if_neg h]
      by_cases h3 : kv.1 = key1
      · have h4 : (key1 == kv.1) = true := by rw [beq_iff_eq]; exact h3.symm
        simp only [List.lookup, h4]
      · have h4 : (key1 == kv.1) = false := by
          rw [beq_eq_false_iff_ne]; exact fun hc => h3 hc.symm
        simp only [List.lookup, h4, ih]

theorem lookup_append_single_ne {β : Type} {key1 key2 : JStr} (hs : List (JStr × β)) (v : β)
    (hne : key1 ≠ key2) :
    List.lookup key1 (hs ++ [(key2, v)]) = List.lookup key1 hs := by
  induction hs with
  | nil =>
    have h1 : (key1 == key2) = false := by rw [beq_eq_false_iff_ne]; exact hne
    simp only [List.nil_append, List.lookup, h1]
  | cons kv rest ih =>
    rw [List.cons_append]
    by_cases h : kv.1 = key1
    · have h4 : (key1 == kv.1) = true := by rw [beq_iff_eq]; exact h.symm
      simp only [List.lookup, h4]
    · have h4 : (key1 == kv.1) = false := by
        rw [beq_eq_false_iff_ne]; exact fun hc => h hc.symm
      simp only [List.lookup, h4, ih]

theorem lookup_append_single_self {β : Type} {key : JStr} (hs : List (JStr × β)) (v : β)
    (hnone : List.lookup key hs = none) :
    List.lookup key (hs ++ [(key, v)]) = some v := by
  induction hs with
  | nil =>
    have hself : (key == key) = true := by rw [beq_iff_eq]
    simp only [List.nil_append, List.lookup, hself]
  | cons kv rest ih =>
    rw [List.cons_append]
    by_cases h : kv.1 = key
    · have h4 : (key == kv.1) = true := by rw [beq_iff_eq]; exact h.symm
      simp only [List.lookup, h4] at hnone
      simp at hnone
    · have h4 : (key == kv.1) = false := by
        rw [beq_eq_false_iff_ne]; exact fun hc => h hc.symm
      simp only [List.lookup, h4] at hnone
      simp only [List.lookup, h4, ih hnone]

theorem lookup_filter_ne {key1 key2 : JStr} (hs : List (JStr × JStr))
    (hne : key1 ≠ key2) :
    List.lookup key1 (hs.filter fun kv => kv.1 ≠ key2) = List.lookup key1 hs := by
  induction hs with
  | nil => rfl
  | cons kv rest ih =>
    by_cases h : kv.1 = key2
    · have hfilter : List.filter (fun kv => decide (kv.1 ≠ key2)) (kv :: rest)
          = List.filter (fun kv => decide (kv.1 ≠ key2)) rest := by
        rw [List.filter_cons]
        simp [h]
      have h2 : (key1 == kv.1) = false := by
        rw [beq_eq_false_iff_ne]; rw [h]; exact hne
      show List.lookup key1 (List.filter (fun kv => decide (kv.1 ≠ key2)) (kv :: rest))
          = List.lookup key1 (kv :: rest)
      rw [hfilter]
      simp only [List.lookup, h2, ih]
    · have hfilter : List.filter (fun kv => decide (kv.1 ≠ key2)) (kv :: rest)
          = kv :: List.filter (fun kv => decide (kv.1 ≠ key2)) rest := by
        rw [List.filter_cons]
        simp [h]
      show List.lookup key1 (List.filter (fun kv => decide (kv.1 ≠ key2)) (kv :: rest))
          = List.lookup key1 (kv :: rest)
      rw [hfilter]
      by_cases h3 : kv.1 = key1
      · have h4 : (key1 == kv.1) = true := by rw [beq_iff_eq]; exact h3.symm
        simp only [List.lookup, h4]
      · have h4 : (key1 == kv.1) = false := by
          rw [beq_eq_false_iff_ne]; exact fun hc => h3 hc.symm
        simp only [List.lookup, h4, ih]

theorem getHeader_setHeader_self (hs : List (JStr × JStr)) (name value : JStr) :
    Copyparty.getHeader (Copyparty.setHeader hs name value) name = some value := by
  unfold Copyparty.getHeader Copyparty.setHeader
  simp only []
  split
  · rename_i hsome
    rw [lookup_map_replace_self, if_pos hsome]
  · rename_i hnone
    apply lookup_append_single_self
    rw [← Option.not_isSome_iff_eq_none]
    simpa using hnone

theorem getHeader_setHeader_ne (hs : List (JStr × JStr)) {name1 name2 : JStr}
    (value : JStr) (hne : jsToLower name1 ≠ jsToLower name2) :
    Copyparty.getHeader (Copyparty.setHeader hs name2 value) name1
      = Copyparty.getHeader hs name1 := by
  unfold Copyparty.getHeader Copyparty.setHeader
  simp only []
  split
  · exact lookup_map_replace_ne hs value hne
  · exact lookup_append_single_ne hs value hne

theorem getHeader_deleteHeader_ne (hs : List (JStr × JStr)) {name1 name2 : JStr}
    (hne : jsToLower name1 ≠ jsToLower name2) :
    Copyparty.getHeader (Copyparty.deleteHeader hs name2) name1
      = Copyparty.getHeader hs name1 := by
  unfold Copyparty.getHeader Copyparty.deleteHeader
  exact lookup_filter_ne hs hne

/-- The `Cookie` header `fetchCopyparty` sends, provided the caller's own
headers carry none (as with `DELETE`, `MOVE` and `MKCOL`): the baseline
cookie and the forwarded request cookie, non-empty parts joined with `; `,
or no header at all when both are empty. -/
theorem fetchCopyparty_cookie_header (connection : Copyparty.CopypartyConnection)
    (respond : Copyparty.NetRequest → Copyparty.MutationFetchResult) (url : Url)
    (method : JStr) (initHeaders : List (JStr × JStr)) (virtualPath : JStr)
    (requestCookie : Option JStr)
    (hinit : Copyparty.getHeader (initHeaders.map fun kv => (jsToLower kv.1, kv.2))
      ("Cookie".toList) = none) :
    Copyparty.getHeader
        ((Copyparty.fetchCopyparty connection respond url method initHeaders virtualPath
          requestCookie).2.headers) ("Cookie".toList)
      = (if joinWith ("; ".toList)
            (([connection.cookie, requestCookie.getD []]).filter (· ≠ [])) ≠ []
         then some (joinWith ("; ".toList)
            (([connection.cookie, requestCookie.getD []]).filter (· ≠ [])))
         else none) := by
  unfold Copyparty.fetchCopyparty
  simp only []
  split
  · exact getHeader_setHeader_self _ _ _
  · rw [getHeader_setHeader_ne _ _ (by decide), getHeader_setHeader_ne _ _ (by decide),
      getHeader_deleteHeader_ne _ (by decide), getHeader_deleteHeader_ne _ (by decide)]
    exact hinit

/-- C3 counterexample: the inbound request `https://example.com/api/files`
and the configured backend `http://example.com` have the same origin host,
yet cookies are not forwarded — the code requires the protocols to match as
well. -/
theorem shouldForward_host_match_counterexample :
    (parseSimpleUrl ("https://example.com/api/files".toList)).map Url.hostname
      = (parseSimpleUrl ("http://example.com".toList)).map Url.hostname
    ∧ FilesApi.shouldForwardRequestCookies parseSimpleUrl
        ("https://example.com/api/files".toList)
        (some ("http://example.com".toList)) = false := by
  constructor
  · decide
  · decide

/-- C3 (amended): the action endpoint forwards the inbound Cookie header
exactly when a backend base URL is configured, both URLs parse, and both
the protocol and the hostname of the inbound request's origin match the
backend's; a forwarded cookie is merged after the configured baseline
cookie with `; `; and whenever forwarding is off — in particular for any
cross-origin request — the inbound cookie is dropped, so the backend
request carries the baseline cookie alone (or no Cookie header). -/
theorem actionCookieForwarding_spec (parseUrl : JStr → Option Url)
    (requestUrl : JStr) (copypartyBaseUrl : Option JStr) (inboundCookie : Option JStr)
    (connection : Copyparty.CopypartyConnection)
    (respond : Copyparty.NetRequest → Copyparty.MutationFetchResult)
    (url : Url) (method : JStr) (virtualPath : JStr) :
    (FilesApi.shouldForwardRequestCookies parseUrl requestUrl copypartyBaseUrl = true
      ↔ ∃ b requestOrigin copypartyOrigin, copypartyBaseUrl = some b ∧ b ≠ []
          ∧ parseUrl requestUrl = some requestOrigin ∧ parseUrl b = some copypartyOrigin
          ∧ requestOrigin.protocol = copypartyOrigin.protocol
          ∧ requestOrigin.hostname = copypartyOrigin.hostname)
    ∧ (FilesApi.shouldForwardRequestCookies parseUrl requestUrl copypartyBaseUrl = false →
        FilesApi.actionRequestCookie parseUrl requestUrl copypartyBaseUrl inboundCookie = [])
    ∧ (∀ requestCookie : JStr,
        Copyparty.getHeader
            ((Copyparty.fetchCopyparty connection respond url method [] virtualPath
              (some requestCookie)).2.headers) ("Cookie".toList)
          = (if joinWith ("; ".toList)
                (([connection.cookie, requestCookie]).filter (· ≠ [])) ≠ []
             then some (joinWith ("; ".toList)
                (([connection.cookie, requestCookie]).filter (· ≠ [])))
             else none)) := by
  refine ⟨?_, ?_, ?_⟩
  · constructor
    · intro h
      unfold FilesApi.shouldForwardRequestCookies at h
      cases hb : copypartyBaseUrl with
      | none => rw [hb] at h; simp at h
      | some b =>
        rw [hb] at h
        simp only [] at h
        by_cases hbe : b = []
        · rw [if_pos hbe] at h; simp at h
        · rw [if_neg hbe] at h
          cases hru : parseUrl requestUrl with
          | none => rw [hru] at h; simp at h
          | some requestOrigin =>
            cases hcu : parseUrl b with
            | none => rw [hru, hcu] at h; simp at h
            | some copypartyOrigin =>
              rw [hru, hcu] at h
              simp only [decide_eq_true_eq] at h
              exact ⟨b, requestOrigin, copypartyOrigin, rfl, hbe, rfl, hcu, h.1, h.2⟩
    · rintro ⟨b, requestOrigin, copypartyOrigin, hb, hbe, hru, hcu, hproto, hhost⟩
      unfold FilesApi.shouldForwardRequestCookies
      rw [hb]
      simp only []
      rw [if_neg hbe, hru, hcu]
      simp [hproto, hhost]
  · intro h
    unfold FilesApi.actionRequestCookie
    rw [h]
    rfl
  · intro requestCookie
    exact fetchCopyparty_cookie_header connection respond url method [] virtualPath
      (some requestCookie) rfl

/-! ## C1: bounded concurrency of the transfer queue

The queue code mutates three pieces of shared state from one cooperative
scheduling context: the `TransferItem` objects (modeled as an id-keyed
store of statuses), the pending `uploadQueue` of items, and the
`activeUploads` counter. `startUpload` increments the counter and marks the
item `uploading` synchronously, before its first `await`; every completion
path (load, error, abort, and the early ensure-destination / delete
failures) sets a final status and calls `finishUpload` exactly once, which
decrements and re-drains. Cancelling a queued item removes it from the
queue without touching the counter. -/

namespace Shell

/-- `TransferStatus` (`error` is rendered `errored` here). -/
inductive TransferStatus where
  | queued
  | uploading
  | complete
  | errored
deriving DecidableEq

/-- The scheduler state. -/
structure QueueState where
  items : List (Nat × TransferStatus)
  uploadQueue : List Nat
  activeUploads : Nat
deriving DecidableEq

/-- The empty initial state. -/
def initQueueState : QueueState :=
  { items := [], uploadQueue := [], activeUploads := 0 }

/-- An item's current status (the object store is id-keyed). -/
def statusOf (s : QueueState) (id : Nat) : Option TransferStatus :=
  s.items.lookup id

/-- Mutate one item's status in the store. -/
def setStatus (items : List (Nat × TransferStatus)) (id : Nat) (st : TransferStatus) :
    List (Nat × TransferStatus) :=
  items.map fun p => if p.1 = id then (id, st) else p

/-- The synchronous prefix of `startUpload`: `activeUploads += 1` and
`item.status = 'uploading'`, both before the first suspension point. -/
def startUploadSync (s : QueueState) (id : Nat) : QueueState :=
  { items := setStatus s.items id .uploading,
    uploadQueue := s.uploadQueue,
    activeUploads := s.activeUploads + 1 }

/-- The `while` loop of `processUploadQueue` over the remaining pending
queue: while `activeUploads < uploadConcurrencyLimit` and the queue is
non-empty, shift the next item and, if it is still `queued`, run the
synchronous prefix of `startUpload` (status to `uploading`, counter up). -/
def processUploadQueueGo (limit : Nat) (items : List (Nat × TransferStatus))
    (active : Nat) : List Nat → QueueState
  | [] => { items := items, uploadQueue := [], activeUploads := active }
  | id :: rest =>
    if active < limit then
      if items.lookup id = some .queued then
        processUploadQueueGo limit (setStatus items id .uploading) (active + 1) rest
      else processUploadQueueGo limit items active rest
    else { items := items, uploadQueue := id :: rest, activeUploads := active }

/-- `processUploadQueue`. -/
def processUploadQueue (limit : Nat) (s : QueueState) : QueueState :=
  processUploadQueueGo limit s.items s.activeUploads s.uploadQueue

/-- The queue events: a batch of fresh items enqueued and drained
(`enqueueUploads` + `processUploadQueue`); an `uploading` item completing
along any path — transport success or failure, post-move failure, early
ensure/delete failure, or the abort handler after cancelling an in-flight
item — which sets the final status and runs `finishUpload`; and
cancellation of a still-`queued` item, which removes it from the pending
queue and marks it errored without touching the counter. -/
inductive QueueEvent where
  | enqueue (ids : List Nat)
  | finish (id : Nat) (ok : Bool)
  | cancelQueued (id : Nat)

/-- One event's effect on the state (guards make ill-formed events no-ops:
ids are fresh and distinct — `createTransferId` — and an item completes or
cancels only from the matching status). -/
def applyEvent (limit : Nat) (s : QueueState) : QueueEvent → QueueState
  | .enqueue ids =>
    if ids.Nodup ∧ ∀ id ∈ ids, statusOf s id = none then
      processUploadQueue limit
        { items := s.items ++ ids.map (fun id => (id, .queued)),
          uploadQueue := s.uploadQueue ++ ids,
          activeUploads := s.activeUploads }
    else s
  | .finish id ok =>
    if statusOf s id = some .uploading then
      processUploadQueue limit
        { items := setStatus s.items id (if ok then .complete else .errored),
          uploadQueue := s.uploadQueue,
          activeUploads := s.activeUploads - 1 }
    else s
  | .cancelQueued id =>
    if statusOf s id = some .queued then
      { items := setStatus s.items id .errored,
        uploadQueue := s.uploadQueue.erase id,
        activeUploads := s.activeUploads }
    else s

/-- Run an event trace from the empty state. -/
def runQueue (limit : Nat) (events : List QueueEvent) : QueueState :=
  events.foldl (applyEvent limit) initQueueState

/-- The number of items currently `uploading`. -/
def countUploading (items : List (Nat × TransferStatus)) : Nat :=
  (items.filter fun p => p.2 = .uploading).length

/-- The queue invariant: `activeUploads` counts exactly the `uploading`
items, stays at or below the limit, and item ids are distinct. -/
def QueueInv (limit : Nat) (s : QueueState) : Prop :=
  countUploading s.items = s.activeUploads
  ∧ s.activeUploads ≤ limit
  ∧ (s.items.map Prod.fst).Nodup

end Shell

theorem setStatus_map_fst (items : List (Nat × Shell.TransferStatus)) (id : Nat)
    (st : Shell.TransferStatus) :
    (Shell.setStatus items id st).map Prod.fst = items.map Prod.fst := by
  induction items with
  | nil => rfl
  | cons p rest ih =>
    obtain ⟨k, v⟩ := p
    by_cases hp : k = id
    · subst hp
      simp only [Shell.setStatus, List.map_cons] at ih ⊢
      simp [ih]
    · simp only [Shell.setStatus, List.map_cons] at ih ⊢
      simp [hp, ih]

theorem setStatus_of_not_mem {items : List (Nat × Shell.TransferStatus)} {id : Nat}
    (h : id ∉ items.map Prod.fst) (st : Shell.TransferStatus) :
    Shell.setStatus items id st = items := by
  induction items with
  | nil => rfl
  | cons p rest ih =>
    obtain ⟨k, v⟩ := p
    rw [List.map_cons] at h
    have h1 : k ≠ id := fun hc => h (List.mem_cons.mpr (Or.inl hc.symm))
    have h2 : id ∉ rest.map Prod.fst := fun hc => h (List.mem_cons_of_mem _ hc)
    simp only [Shell.setStatus, List.map_cons] at ih ⊢
    rw [if_neg h1, ih h2]

theorem lookup_none_iff_not_mem_keys {β : Type} {items : List (Nat × β)} {id : Nat} :
    List.lookup id items = none ↔ id ∉ items.map Prod.fst := by
  induction items with
  | nil => simp
  | cons p rest ih =>
    obtain ⟨k, v⟩ := p
    by_cases hp : id = k
    · subst hp
      have hbeq : (id == id) = true := by rw [beq_iff_eq]
      simp only [List.lookup, hbeq, List.map_cons]
      simp
    · have hbeq : (id == k) = false := by rw [beq_eq_false_iff_ne]; exact hp
      simp only [List.lookup, hbeq, List.map_cons]
      rw [ih]
      constructor
      · intro h hc
        rcases List.mem_cons.mp hc with hc | hc
        · exact hp hc
        · exact h hc
      · intro h hc
        exact h (List.mem_cons_of_mem _ hc)

theorem countUploading_cons (p : Nat × Shell.TransferStatus)
    (l : List (Nat × Shell.TransferStatus)) :
    Shell.countUploading (p :: l)
      = (if p.2 = Shell.TransferStatus.uploading then 1 else 0) + Shell.countUploading l := by
  by_cases hp : p.2 = Shell.TransferStatus.uploading
    <;> simp [Shell.countUploading, List.filter_cons, hp, Nat.add_comm]

theorem countUploading_setStatus {items : List (Nat × Shell.TransferStatus)} {id : Nat}
    {st0 : Shell.TransferStatus} (hnodup : (items.map Prod.fst).Nodup)
    (hlookup : List.lookup id items = some st0) (st : Shell.TransferStatus) :
    Shell.countUploading (Shell.setStatus items id st)
        + (if st0 = Shell.TransferStatus.uploading then 1 else 0)
      = Shell.countUploading items + (if st = Shell.TransferStatus.uploading then 1 else 0) := by
  induction items with
  | nil => simp at hlookup
  | cons p rest ih =>
    obtain ⟨k, v⟩ := p
    rw [List.map_cons] at hnodup
    have hnodup2 := hnodup.of_cons
    have hknotin := (List.nodup_cons.mp hnodup).1
    by_cases hp : k = id
    · subst hp
      have hbeq : (k == k) = true := by rw [beq_iff_eq]
      simp only [List.lookup, hbeq] at hlookup
      injection hlookup with hst0
      have hrest : Shell.setStatus rest k st = rest := setStatus_of_not_mem hknotin st
      have hmapped : List.map (fun p => if p.1 = k then (k, st) else p) rest = rest := hrest
      have hhead : Shell.setStatus ((k, v) :: rest) k st = (k, st) :: rest := by
        simp only [Shell.setStatus, List.map_cons]
        simp [hmapped]
      rw [hhead, countUploading_cons, countUploading_cons, ← hst0]
      by_cases hstu : st = Shell.TransferStatus.uploading
        <;> by_cases hvu : v = Shell.TransferStatus.uploading
        <;> simp [hstu, hvu]
        <;> omega
    · have hbeq : (id == k) = false := by
        rw [beq_eq_false_iff_ne]; exact fun hc => hp hc.symm
      simp only [List.lookup, hbeq] at hlookup
      have ih2 := ih hnodup2 hlookup
      have hhead : Shell.setStatus ((k, v) :: rest) id st
          = (k, v) :: Shell.setStatus rest id st := by
        simp only [Shell.setStatus, List.map_cons]
        rw [if_neg hp]
      rw [hhead, countUploading_cons, countUploading_cons]
      omega

theorem processUploadQueueGo_inv {limit : Nat}
    {items : List (Nat × Shell.TransferStatus)} {active : Nat} (queue : List Nat)
    (hcount : Shell.countUploading items = active) (hle : active ≤ limit)
    (hnodup : (items.map Prod.fst).Nodup) :
    Shell.QueueInv limit (Shell.processUploadQueueGo limit items active queue) := by
  induction queue generalizing items active with
  | nil => exact ⟨hcount, hle, hnodup⟩
  | cons id rest ih =>
    rw [Shell.processUploadQueueGo]
    by_cases hlt : active < limit
    · rw [if_pos hlt]
      by_cases hst : items.lookup id = some Shell.TransferStatus.queued
      · rw [if_pos hst]
        apply ih
        · have hcount2 := countUploading_setStatus hnodup hst Shell.TransferStatus.uploading
          simp at hcount2
          omega
        · exact hlt
        · rw [setStatus_map_fst]
          exact hnodup
      · rw [if_neg hst]
        exact ih hcount hle hnodup
    · rw [if_neg hlt]
      exact ⟨hcount, hle, hnodup⟩

theorem processUploadQueue_inv {limit : Nat} {s : Shell.QueueState}
    (h : Shell.QueueInv limit s) :
    Shell.QueueInv limit (Shell.processUploadQueue limit s) :=
  processUploadQueueGo_inv s.uploadQueue h.1 h.2.1 h.2.2

theorem countUploading_append_queued (items : List (Nat × Shell.TransferStatus))
    (ids : List Nat) :
    Shell.countUploading (items ++ ids.map fun id => (id, Shell.TransferStatus.queued))
      = Shell.countUploading items := by
  have hnil : (ids.map fun id => (id, Shell.TransferStatus.queued)).filter
      (fun p => p.2 = Shell.TransferStatus.uploading) = [] := by
    induction ids with
    | nil => rfl
    | cons i rest ih => simp only [List.map_cons, List.filter_cons]; simp [ih]
  unfold Shell.countUploading
  rw [List.filter_append, hnil, List.append_nil]

theorem map_fst_map_pair_queued (ids : List Nat) :
    (ids.map fun id => (id, Shell.TransferStatus.queued)).map Prod.fst = ids := by
  induction ids with
  | nil => rfl
  | cons i rest ih =>
    simp only [List.map_cons]
    rw [ih]

theorem applyEvent_inv {limit : Nat} {s : Shell.QueueState} (h : Shell.QueueInv limit s)
    (e : Shell.QueueEvent) : Shell.QueueInv limit (Shell.applyEvent limit s e) := by
  cases e with
  | enqueue ids =>
    rw [Shell.applyEvent]
    by_cases hg : ids.Nodup ∧ ∀ id ∈ ids, Shell.statusOf s id = none
    · rw [if_pos hg]
      apply processUploadQueue_inv
      refine ⟨?_, h.2.1, ?_⟩
      · show Shell.countUploading
            (s.items ++ ids.map fun id => (id, Shell.TransferStatus.queued))
          = s.activeUploads
        rw [countUploading_append_queued]
        exact h.1
      · show ((s.items
            ++ ids.map fun id => (id, Shell.TransferStatus.queued)).map Prod.fst).Nodup
        rw [List.map_append]
        have hkeys := map_fst_map_pair_queued ids
        refine List.Nodup.append h.2.2 ?_ ?_
        · rw [hkeys]
          exact hg.1
        · rw [hkeys]
          intro a ha hb
          have hnone := hg.2 a hb
          exact (lookup_none_iff_not_mem_keys.mp hnone) ha
    · rw [if_neg hg]
      exact h
  | finish id ok =>
    rw [Shell.applyEvent]
    by_cases hst : Shell.statusOf s id = some .uploading
    · rw [if_pos hst]
      apply processUploadQueue_inv
      refine ⟨?_, ?_, ?_⟩
      · show Shell.countUploading
            (Shell.setStatus s.items id
              (if ok then Shell.TransferStatus.complete else Shell.TransferStatus.errored))
          = s.activeUploads - 1
        have hcount := countUploading_setStatus h.2.2 hst
          (if ok then Shell.TransferStatus.complete else Shell.TransferStatus.errored)
        have hne : (if ok then Shell.TransferStatus.complete
            else Shell.TransferStatus.errored) ≠ Shell.TransferStatus.uploading := by
          cases ok <;> simp
        rw [if_pos rfl, if_neg hne] at hcount
        have h1 := h.1
        omega
      · exact Nat.le_trans (Nat.sub_le _ _) h.2.1
      · show ((Shell.setStatus s.items id
            (if ok then Shell.TransferStatus.complete
              else Shell.TransferStatus.errored)).map Prod.fst).Nodup
        rw [setStatus_map_fst]
        exact h.2.2
    · rw [if_neg hst]
      exact h
  | cancelQueued id =>
    rw [Shell.applyEvent]
    by_cases hst : Shell.statusOf s id = some .queued
    · rw [if_pos hst]
      refine ⟨?_, h.2.1, ?_⟩
      · show Shell.countUploading (Shell.setStatus s.items id Shell.TransferStatus.errored)
          = s.activeUploads
        have hcount := countUploading_setStatus h.2.2 hst Shell.TransferStatus.errored
        simp at hcount
        have h1 := h.1
        omega
      · show ((Shell.setStatus s.items id Shell.TransferStatus.errored).map Prod.fst).Nodup
        rw [setStatus_map_fst]
        exact h.2.2
    · rw [if_neg hst]
      exact h

theorem runQueue_inv (limit : Nat) (events : List Shell.QueueEvent) :
    Shell.QueueInv limit (Shell.runQueue limit events) := by
  have hgen : ∀ (es : List Shell.QueueEvent) (s : Shell.QueueState),
      Shell.QueueInv limit s → Shell.QueueInv limit (es.foldl (Shell.applyEvent limit) s) := by
    intro es
    induction es with
    | nil => exact fun s hs => hs
    | cons e rest ih => exact fun s hs => ih _ (applyEvent_inv hs e)
  exact hgen events Shell.initQueueState ⟨rfl, Nat.zero_le _, List.nodup_nil⟩

/-- C1: over every sequence of enqueue, cancellation and completion events,
starting from the empty queue, the number of `TransferItem`s with status
`uploading` always equals the `activeUploads` counter and never exceeds the
configured concurrency limit: `processUploadQueue` only starts an upload
while the counter is strictly below the limit, `startUpload` increments the
counter before its first suspension, and every completion path decrements
it exactly once. -/
theorem uploadConcurrency_bounded (limit : Nat) (events : List Shell.QueueEvent) :
    Shell.countUploading (Shell.runQueue limit events).items
        = (Shell.runQueue limit events).activeUploads
    ∧ Shell.countUploading (Shell.runQueue limit events).items ≤ limit := by
  have h := runQueue_inv limit events
  refine ⟨h.1, ?_⟩
  rw [h.1]
  exact h.2.1

/-! ## C5 / C10: `enqueueUploads`, `splitFileName`, `makeUniqueFileName` -/

namespace Shell

/-- `splitFileName` from the page module: split at the last dot, but only
when that dot is neither the first nor the last character; the extension
keeps the dot. -/
def splitFileName (name : JStr) : JStr × JStr :=
  let dotIndex := lastIndexOf name '.'
  if dotIndex ≤ 0 ∨ dotIndex ≥ (name.length : Int) - 1 then (name, [])
  else (name.take dotIndex.toNat, name.drop dotIndex.toNat)

/-- The candidate the rename loop tries at a given index:
`${stem} (${index})${ext}`. -/
def renameCandidate (stem ext : JStr) (index : Nat) : JStr :=
  stem ++ " (".toList ++ natToJStr index ++ ")".toList ++ ext

/-- A JavaScript `Set<string>` modelled as an insertion-ordered list:
`Set.add` appends when the name is new. -/
def addName (reserved : List JStr) (name : JStr) : List JStr :=
  if name ∈ reserved then reserved else reserved ++ [name]

/-- The `while (true)` search of `makeUniqueFileName`, given explicit fuel;
`makeUniqueFileName` supplies `reserved.length + 1` units, which the
pigeonhole lemma `exists_free_candidate` shows is always enough, so the
fuel-exhausted branch is never taken and the model agrees with the
unbounded JavaScript loop. -/
def makeUniqueLoop (stem ext : JStr) (reserved : List JStr) : Nat → Nat → JStr
  | index, 0 => renameCandidate stem ext index
  | index, fuel + 1 =>
    let candidate := renameCandidate stem ext index
    if candidate ∈ reserved then makeUniqueLoop stem ext reserved (index + 1) fuel
    else candidate

/-- `makeUniqueFileName`: return the base name if it is free, else the
first `stem (index)ext` candidate (index starting at 2) outside the
reserved set; the JavaScript function mutates the set, so the model also
returns the updated set. -/
def makeUniqueFileName (baseName : JStr) (reservedNames : List JStr) : JStr × List JStr :=
  if baseName ∈ reservedNames then
    let se := splitFileName baseName
    let candidate := makeUniqueLoop se.1 se.2 reservedNames 2 (reservedNames.length + 1)
    (candidate, addName reservedNames candidate)
  else (baseName, addName reservedNames baseName)

end Shell

/-! Decimal rendering is injective: needed to show the rename loop never
repeats a candidate, hence always escapes the reserved set. -/

def decodeDigitsRev : List Char → Nat
  | [] => 0
  | c :: rest => (c.toNat - 48) + 10 * decodeDigitsRev rest

theorem digitChar_toNat_small : ∀ d, d < 10 → (Nat.digitChar d).toNat = 48 + d := by decide

theorem decode_natDigitsRevGo : ∀ (fuel n : Nat), n ≤ fuel + 9 →
    decodeDigitsRev (natDigitsRevGo fuel n) = n := by
  intro fuel
  induction fuel with
  | zero =>
    intro n hn
    simp only [natDigitsRevGo, decodeDigitsRev]
    rw [digitChar_toNat_small n (by omega)]
    omega
  | succ fuel ih =>
    intro n hn
    rw [natDigitsRevGo]
    by_cases h : n < 10
    · rw [if_pos h]
      simp only [decodeDigitsRev]
      rw [digitChar_toNat_small n h]
      omega
    · rw [if_neg h]
      simp only [decodeDigitsRev]
      rw [digitChar_toNat_small (n % 10) (Nat.mod_lt n (by omega))]
      rw [ih (n / 10) (by omega)]
      omega

theorem decode_natDigitsRev (n : Nat) : decodeDigitsRev (natDigitsRev n) = n :=
  decode_natDigitsRevGo n n (by omega)

theorem natToJStr_injective {m n : Nat} (h : natToJStr m = natToJStr n) : m = n := by
  have hrev : natDigitsRev m = natDigitsRev n := by
    have := congrArg List.reverse h
    simpa [natToJStr] using this
  have hm := decode_natDigitsRev m
  have hn := decode_natDigitsRev n
  rw [← hm, ← hn, hrev]

namespace Shell

theorem renameCandidate_injective {stem ext : JStr} {i j : Nat}
    (h : renameCandidate stem ext i = renameCandidate stem ext j) : i = j := by
  unfold renameCandidate at h
  have h1 := List.append_cancel_right h
  have h2 := List.append_cancel_right h1
  have h3 := List.append_cancel_left h2
  exact natToJStr_injective h3

theorem exists_free_candidate (stem ext : JStr) (reserved : List JStr) (start : Nat) :
    ∃ j, start ≤ j ∧ j < start + (reserved.length + 1)
      ∧ renameCandidate stem ext j ∉ reserved := by
  by_contra hall
  push_neg at hall
  set l := (List.range (reserved.length + 1)).map
    (fun k => renameCandidate stem ext (start + k)) with hl
  have hsub : ∀ x ∈ l, x ∈ reserved := by
    intro x hx
    rcases List.mem_map.mp hx with ⟨k, hk, hxe⟩
    have hk2 := List.mem_range.mp hk
    exact hxe ▸ hall (start + k) (Nat.le_add_right _ _) (by omega)
  have hnodup : l.Nodup := by
    refine List.Nodup.map ?_ (List.nodup_range _)
    intro a b hab
    have := renameCandidate_injective hab
    omega
  have h1 : l.toFinset.card = l.length := List.toFinset_card_of_nodup hnodup
  have h2 : l.toFinset ⊆ reserved.toFinset := by
    intro x hx
    rw [List.mem_toFinset] at hx ⊢
    exact hsub x hx
  have h3 := Finset.card_le_card h2
  have h4 : reserved.toFinset.card ≤ reserved.length := reserved.toFinset_card_le
  have h5 : l.length = reserved.length + 1 := by
    rw [hl, List.length_map, List.length_range]
  omega

theorem makeUniqueLoop_not_mem (stem ext : JStr) (reserved : List JStr) :
    ∀ (fuel index : Nat),
      (∃ j, index ≤ j ∧ j < index + fuel ∧ renameCandidate stem ext j ∉ reserved) →
      makeUniqueLoop stem ext reserved index fuel ∉ reserved := by
  intro fuel
  induction fuel with
  | zero =>
    rintro index ⟨j, h1, h2, _⟩
    exact absurd h2 (by omega)
  | succ fuel ih =>
    rintro index ⟨j, h1, h2, h3⟩
    rw [makeUniqueLoop]
    by_cases hc : renameCandidate stem ext index ∈ reserved
    · rw [if_pos hc]
      have hji : j ≠ index := fun hji => (hji ▸ h3) hc
      exact ih (index + 1) ⟨j, by omega, by omega, h3⟩
    · rw [if_neg hc]
      exact hc

theorem makeUniqueLoop_shape (stem ext : JStr) (reserved : List JStr) :
    ∀ (fuel index : Nat),
      ∃ j, index ≤ j ∧ makeUniqueLoop stem ext reserved index fuel
        = renameCandidate stem ext j := by
  intro fuel
  induction fuel with
  | zero => intro index; exact ⟨index, le_refl _, rfl⟩
  | succ fuel ih =>
    intro index
    rw [makeUniqueLoop]
    by_cases hc : renameCandidate stem ext index ∈ reserved
    · rw [if_pos hc]
      obtain ⟨j, hj1, hj2⟩ := ih (index + 1)
      exact ⟨j, by omega, hj2⟩
    · rw [if_neg hc]
      exact ⟨index, le_refl _, rfl⟩

theorem mem_addName {reserved : List JStr} {name x : JStr} :
    x ∈ addName reserved name ↔ x ∈ reserved ∨ x = name := by
  unfold addName
  by_cases h : name ∈ reserved
  · rw [if_pos h]
    constructor
    · exact Or.inl
    · rintro (hx | rfl)
      · exact hx
      · exact h
  · rw [if_neg h]
    simp

theorem self_mem_addName {reserved : List JStr} {name : JStr} :
    name ∈ addName reserved name := mem_addName.mpr (Or.inr rfl)

theorem subset_addName {reserved : List JStr} {name : JStr} :
    reserved ⊆ addName reserved name := fun _ hx => mem_addName.mpr (Or.inl hx)

theorem makeUniqueFileName_spec (baseName : JStr) (reserved : List JStr) :
    (makeUniqueFileName baseName reserved).1 ∉ reserved
    ∧ (makeUniqueFileName baseName reserved).2
        = addName reserved (makeUniqueFileName baseName reserved).1 := by
  unfold makeUniqueFileName
  by_cases hb : baseName ∈ reserved
  · rw [if_pos hb]
    refine ⟨?_, rfl⟩
    apply makeUniqueLoop_not_mem
    obtain ⟨j, h1, h2, h3⟩ :=
      exists_free_candidate (splitFileName baseName).1 (splitFileName baseName).2 reserved 2
    exact ⟨j, h1, h2, h3⟩
  · rw [if_neg hb]
    exact ⟨hb, rfl⟩

theorem makeUniqueFileName_shape (baseName : JStr) (reserved : List JStr) :
    (makeUniqueFileName baseName reserved).1 = baseName
    ∨ ∃ j, 2 ≤ j ∧ (makeUniqueFileName baseName reserved).1
        = renameCandidate (splitFileName baseName).1 (splitFileName baseName).2 j := by
  unfold makeUniqueFileName
  by_cases hb : baseName ∈ reserved
  · rw [if_pos hb]
    obtain ⟨j, hj1, hj2⟩ :=
      makeUniqueLoop_shape (splitFileName baseName).1 (splitFileName baseName).2 reserved
        (reserved.length + 1) 2
    exact Or.inr ⟨j, hj1, hj2⟩
  · rw [if_neg hb]
    exact Or.inl rfl

end Shell

namespace Shell

/-- One of the strategies of the upload conflict dialog. -/
inductive ConflictStrategy where
  | skip
  | rename
  | replace
deriving DecidableEq

/-- An `UploadCandidate` as `enqueueUploads` reads it: the picked file's
size and the candidate's relative path (the file name is the path's last
segment, so the path carries everything the loop uses). -/
structure UploadCandidate where
  fileSize : Int
  relativePath : JStr
deriving DecidableEq

/-- The fields of a freshly enqueued `TransferItem` that the claims
observe; `id` stands in for `createTransferId()` as the candidate's index,
and `loaded = 0`, `progress = 0`, `status = 'queued'` are omitted as
constants. -/
structure TransferItemE where
  id : Nat
  sourceName : JStr
  targetName : JStr
  targetPath : JStr
  destinationPath : JStr
  uploadUrl : JStr
  name : JStr
  size : Int
  replaceExisting : Bool
deriving DecidableEq

/-- The mutable state the `enqueueUploads` loop threads: the
per-destination reserved-name sets and the items pushed so far. -/
structure EnqueueState where
  reservedNamesByDestination : List (JStr × List JStr)
  items : List TransferItemE

/-- `getReservedNames`: return the destination's reserved set, seeding it
from the known listing on first access; the JavaScript closure mutates the
map, so the model also returns the updated map. -/
def getReservedNames (existingNamesByDestination : List (JStr × List JStr))
    (reservedNamesByDestination : List (JStr × List JStr)) (path : JStr) :
    List JStr × List (JStr × List JStr) :=
  match reservedNamesByDestination.lookup path with
  | some existing => (existing, reservedNamesByDestination)
  | none =>
    let seededNames := (existingNamesByDestination.lookup path).getD []
    (seededNames, reservedNamesByDestination ++ [(path, seededNames)])

/-- Store a destination's updated reserved set back into the map (the
JavaScript sets are mutated in place; the model rebuilds the entry). -/
def updateReserved (reservedNamesByDestination : List (JStr × List JStr))
    (path : JStr) (names : List JStr) : List (JStr × List JStr) :=
  reservedNamesByDestination.map fun kv => if kv.1 = path then (path, names) else kv

/-- The strategy dispatch of one loop iteration: given the candidate's
trimmed source name, the destination's reserved set and the two conflict
flags, produce the target name, the updated reserved set and the
`replaceExisting` flag, mirroring lines 1491-1506 of the page module. -/
def resolveTarget (strategy : ConflictStrategy) (sourceName : JStr)
    (reservedNames : List JStr) (hasConflict existsOnServer sameDest : Bool) :
    JStr × List JStr × Bool :=
  match strategy with
  | .rename =>
    let u := makeUniqueFileName sourceName reservedNames
    (u.1, u.2, false)
  | .replace =>
    if existsOnServer && sameDest then
      (sourceName, addName reservedNames sourceName, true)
    else if hasConflict then
      let u := makeUniqueFileName sourceName reservedNames
      (u.1, u.2, false)
    else (sourceName, addName reservedNames sourceName, false)
  | .skip => (sourceName, addName reservedNames sourceName, false)

/-- The tail of one loop iteration, once the candidate's source name and
resolved destination are known: consult the reserved-name set, skip
conflicts under the skip strategy, and otherwise push the built
`TransferItem` while storing the updated reserved set back. -/
def enqueueResolved (strategy : ConflictStrategy)
    (existingNamesByDestination : List (JStr × List JStr)) (uploadUrlFor : JStr → JStr)
    (st : EnqueueState) (index : Nat) (size : Int) (normalizedRelativePath : JStr)
    (sourceName resolvedDestinationPath : JStr) (sameDest : Bool) : EnqueueState :=
  let rn := getReservedNames existingNamesByDestination
    st.reservedNamesByDestination resolvedDestinationPath
  let reservedNames := rn.1
  let existingNames := (existingNamesByDestination.lookup resolvedDestinationPath).getD []
  let hasConflict := sourceName ∈ reservedNames
  let existsOnServer := sourceName ∈ existingNames
  if hasConflict ∧ strategy = .skip then
    { st with reservedNamesByDestination := rn.2 }
  else
    let t := resolveTarget strategy sourceName reservedNames
      (decide hasConflict) (decide existsOnServer) sameDest
    { reservedNamesByDestination := updateReserved rn.2 resolvedDestinationPath t.2.1,
      items := st.items ++ [{
        id := index,
        sourceName := sourceName,
        targetName := t.1,
        targetPath := joinNormalizedPaths resolvedDestinationPath t.1,
        destinationPath := resolvedDestinationPath,
        uploadUrl := uploadUrlFor resolvedDestinationPath,
        name := if normalizedRelativePath ≠ [] then normalizedRelativePath else t.1,
        size := size,
        replaceExisting := t.2.2 }] }

/-- One iteration of the `enqueueUploads` loop over `candidates`
(lines 1470-1525), head part: normalize the relative path, skip empty
source names, resolve the destination, then hand off to
`enqueueResolved`. -/
def enqueueStep (strategy : ConflictStrategy) (normalizedDestinationPath : JStr)
    (existingNamesByDestination : List (JStr × List JStr)) (uploadUrlFor : JStr → JStr)
    (st : EnqueueState) (index : Nat) (candidate : UploadCandidate) : EnqueueState :=
  let normalizedRelativePath := normalizeUploadRelativePath candidate.relativePath
  let dirFile := splitUploadRelativePath normalizedRelativePath
  let sourceName := jsTrim dirFile.2
  if sourceName = [] then st
  else
    let resolvedDestinationPath :=
      if dirFile.1 ≠ [] then joinNormalizedPaths normalizedDestinationPath dirFile.1
      else normalizedDestinationPath
    enqueueResolved strategy existingNamesByDestination uploadUrlFor st index
      candidate.fileSize normalizedRelativePath sourceName resolvedDestinationPath
      (decide (resolvedDestinationPath = normalizedDestinationPath))

/-- `enqueueUploads` (lines 1442-1559), restricted to the queueing logic
the claims are about: the known listing seeds only the normalized
destination's entry, and the loop threads the reserved-name map while
pushing items in input order (the batching only controls when items are
flushed to the queue, not what is enqueued). -/
def enqueueUploads (strategy : ConflictStrategy) (destinationPath : JStr)
    (existingFileNames : List JStr) (uploadUrlFor : JStr → JStr)
    (candidates : List UploadCandidate) : List TransferItemE :=
  let normalizedDestinationPath := normalizeInventoryPath destinationPath
  let existingNamesByDestination : List (JStr × List JStr) :=
    [(normalizedDestinationPath, existingFileNames)]
  (candidates.enum.foldl
    (fun st ic =>
      enqueueStep strategy normalizedDestinationPath existingNamesByDestination
        uploadUrlFor st ic.1 ic.2)
    { reservedNamesByDestination := [], items := [] }).items

end Shell

/-- C5: under the rename strategy, with "photo.png" already in the
destination's known listing, two candidates both named "photo.png" are
enqueued in input order as "photo (2).png" and "photo (3).png": the
numeric suffix goes before the extension, and each candidate is checked
against both the existing remote names and the names reserved by earlier
candidates of the batch (the first rename reserves "photo (2).png", which
pushes the second to "photo (3).png"). -/
theorem renameStrategy_photo_suffixes :
    (Shell.enqueueUploads Shell.ConflictStrategy.rename ("/dest".toList)
        [("photo.png".toList)] (fun _ => "up".toList)
        [ { fileSize := 1, relativePath := "photo.png".toList },
          { fileSize := 2, relativePath := "photo.png".toList } ]).map
        Shell.TransferItemE.targetName
      = [("photo (2).png".toList), ("photo (3).png".toList)]
    ∧ (Shell.enqueueUploads Shell.ConflictStrategy.rename ("/dest".toList)
        [("photo.png".toList)] (fun _ => "up".toList)
        [ { fileSize := 1, relativePath := "photo.png".toList },
          { fileSize := 2, relativePath := "photo.png".toList } ]).map
        Shell.TransferItemE.targetPath
      = [("/dest/photo (2).png".toList), ("/dest/photo (3).png".toList)] := by
  constructor
  · decide
  · decide

/-! Trim stability: a string equals its own trim exactly when its first and
last characters are not whitespace; both directions are used to track that
segment names stay trim-stable through renaming. -/

theorem jsTrim_eq_self_of_bounds {s : JStr} (hne : s ≠ [])
    (hh : isJsWhitespace (s.head hne) = false)
    (hl : isJsWhitespace (s.getLast hne) = false) :
    jsTrim s = s := by
  obtain ⟨c, t, rfl⟩ := List.exists_cons_of_ne_nil hne
  rw [List.head_cons] at hh
  rw [jsTrim_eq_rdropWhile]
  have hdrop : (c :: t).dropWhile isJsWhitespace = c :: t := by
    rw [List.dropWhile_cons, if_neg (by simp [hh])]
  rw [hdrop]
  rw [List.rdropWhile_eq_self_iff]
  intro hl'
  simp [hl]

theorem trim_self_bounds {s : JStr} (h : jsTrim s = s) (hne : s ≠ []) :
    isJsWhitespace (s.head hne) = false ∧ isJsWhitespace (s.getLast hne) = false := by
  rw [jsTrim_eq_rdropWhile] at h
  have hsuffix := List.dropWhile_suffix (l := s) isJsWhitespace
  have hprefix := List.rdropWhile_prefix isJsWhitespace (s.dropWhile isJsWhitespace)
  have hlen1 := hprefix.sublist.length_le
  have hlen2 := hsuffix.sublist.length_le
  have hlen3 := congrArg List.length h
  have hdrop : s.dropWhile isJsWhitespace = s := hsuffix.eq_of_length (by omega)
  have hrdrop : List.rdropWhile isJsWhitespace s = s := by rw [hdrop] at h; exact h
  constructor
  · obtain ⟨c, t, rfl⟩ := List.exists_cons_of_ne_nil hne
    rw [List.head_cons]
    rw [List.dropWhile_cons] at hdrop
    by_cases hc : isJsWhitespace c = true
    · rw [if_pos (by simp [hc])] at hdrop
      have hbad := congrArg List.length hdrop
      have := (List.dropWhile_suffix (l := t) isJsWhitespace).sublist.length_le
      simp at hbad
      omega
    · simpa using hc
  · have := List.rdropWhile_eq_self_iff.mp hrdrop hne
    simpa using this

/-! `splitFileName` decomposition facts. -/

namespace Shell

theorem splitFileName_append (name : JStr) :
    (splitFileName name).1 ++ (splitFileName name).2 = name := by
  unfold splitFileName
  simp only []
  split
  · simp
  · simp

theorem splitFileName_stem_ne {name : JStr} (hne : name ≠ []) :
    (splitFileName name).1 ≠ [] := by
  unfold splitFileName
  simp only []
  split
  · exact hne
  · rename_i h
    push_neg at h
    obtain ⟨h1, _⟩ := h
    intro hnil
    rw [List.take_eq_nil_iff] at hnil
    rcases hnil with h0 | h0
    · omega
    · exact hne h0

theorem splitFileName_stem_prefix (name : JStr) : (splitFileName name).1 <+: name := by
  unfold splitFileName
  simp only []
  split
  · exact List.prefix_rfl
  · exact List.take_prefix _ _

theorem splitFileName_ext_suffix (name : JStr) : (splitFileName name).2 <:+ name := by
  unfold splitFileName
  simp only []
  split
  · exact List.nil_suffix
  · exact List.drop_suffix _ _

end Shell

/-! Characters of rendered decimals are decimal digit characters. -/

theorem natDigitsRevGo_chars : ∀ (fuel n : Nat), n ≤ fuel + 9 →
    ∀ c ∈ natDigitsRevGo fuel n, ∃ d, d < 10 ∧ c = Nat.digitChar d := by
  intro fuel
  induction fuel with
  | zero =>
    intro n hn c hc
    simp only [natDigitsRevGo, List.mem_singleton] at hc
    exact ⟨n, by omega, hc⟩
  | succ fuel ih =>
    intro n hn c hc
    rw [natDigitsRevGo] at hc
    by_cases h : n < 10
    · rw [if_pos h] at hc
      simp only [List.mem_singleton] at hc
      exact ⟨n, h, hc⟩
    · rw [if_neg h] at hc
      rcases List.mem_cons.mp hc with hc | hc
      · exact ⟨n % 10, Nat.mod_lt n (by omega), hc⟩
      · exact ih (n / 10) (by omega) c hc

theorem natToJStr_chars {j : Nat} {c : Char} (h : c ∈ natToJStr j) :
    ∃ d, d < 10 ∧ c = Nat.digitChar d :=
  natDigitsRevGo_chars j j (by omega) c (List.mem_reverse.mp h)

theorem digitChar_props : ∀ d, d < 10 →
    Nat.digitChar d ≠ '/' ∧ Nat.digitChar d ≠ '\\'
    ∧ isJsWhitespace (Nat.digitChar d) = false := by decide

/-! Proof-free variants of the trim-stability bounds, phrased with `head?`
and `getLast?`. -/

theorem jsTrim_eq_self_of_bounds_opt {s : JStr} {c d : Char}
    (hh : s.head? = some c) (hc : isJsWhitespace c = false)
    (hl : s.getLast? = some d) (hd : isJsWhitespace d = false) :
    jsTrim s = s := by
  have hne : s ≠ [] := by
    intro h
    rw [h] at hh
    simp at hh
  apply jsTrim_eq_self_of_bounds hne
  · rw [List.head?_eq_head hne] at hh
    injection hh with hh
    rw [hh]
    exact hc
  · rw [List.getLast?_eq_getLast s hne] at hl
    injection hl with hl
    rw [hl]
    exact hd

theorem trim_self_head_opt {s : JStr} {c : Char} (h : jsTrim s = s)
    (hh : s.head? = some c) : isJsWhitespace c = false := by
  have hne : s ≠ [] := by
    intro he
    rw [he] at hh
    simp at hh
  have := (trim_self_bounds h hne).1
  rw [List.head?_eq_head hne] at hh
  injection hh with hh
  rw [← hh]
  exact this

theorem trim_self_getLast_opt {s : JStr} {d : Char} (h : jsTrim s = s)
    (hl : s.getLast? = some d) : isJsWhitespace d = false := by
  have hne : s ≠ [] := by
    intro he
    rw [he] at hl
    simp at hl
  have := (trim_self_bounds h hne).2
  rw [List.getLast?_eq_getLast s hne] at hl
  injection hl with hl
  rw [← hl]
  exact this

theorem getLast?_append_of_some {l r : List Char} {d : Char}
    (h : r.getLast? = some d) : (l ++ r).getLast? = some d := by
  rw [List.getLast?_append, h]
  rfl

namespace Shell

theorem renameCandidate_ne_nil {stem ext : JStr} (h : stem ≠ []) (j : Nat) :
    renameCandidate stem ext j ≠ [] := by
  unfold renameCandidate
  simp [h]

/-- Renaming a clean segment yields a clean segment: the suffixed candidate
keeps the original's first character, ends in `)` or the original's last
character, contains `(`, and adds only digits and `' '`, `'('`, `')'`. -/
theorem renameCandidate_good {name : JStr} (h : GoodSeg name) (j : Nat) :
    GoodSeg (renameCandidate (splitFileName name).1 (splitFileName name).2 j) := by
  obtain ⟨htrim, hne, _, _, hslash, hback⟩ := h
  have happ := splitFileName_append name
  have hstemne := splitFileName_stem_ne hne
  have hstempre := splitFileName_stem_prefix name
  have hextsuf := splitFileName_ext_suffix name
  have hrne : renameCandidate (splitFileName name).1 (splitFileName name).2 j ≠ [] :=
    renameCandidate_ne_nil hstemne j
  have hmem : ∀ c ∈ renameCandidate (splitFileName name).1 (splitFileName name).2 j,
      c ∈ name ∨ c = ' ' ∨ c = '(' ∨ c = ')' ∨ ∃ d, d < 10 ∧ c = Nat.digitChar d := by
    intro c hc
    unfold renameCandidate at hc
    simp only [List.append_assoc, List.mem_append] at hc
    rcases hc with hc | hc | hc | hc | hc
    · exact Or.inl (hstempre.subset hc)
    · have hsp : (" (".toList) = [' ', '('] := rfl
      rw [hsp] at hc
      rcases List.mem_cons.mp hc with rfl | hc
      · exact Or.inr (Or.inl rfl)
      · rcases List.mem_cons.mp hc with rfl | hc
        · exact Or.inr (Or.inr (Or.inl rfl))
        · exact absurd hc (List.not_mem_nil c)
    · exact Or.inr (Or.inr (Or.inr (Or.inr (natToJStr_chars hc))))
    · have hrp : (")".toList) = [')'] := rfl
      rw [hrp] at hc
      rcases List.mem_cons.mp hc with rfl | hc
      · exact Or.inr (Or.inr (Or.inr (Or.inl rfl)))
      · exact absurd hc (List.not_mem_nil c)
    · exact Or.inl (hextsuf.subset hc)
  have hpar : '(' ∈ renameCandidate (splitFileName name).1 (splitFileName name).2 j := by
    unfold renameCandidate
    simp only [List.append_assoc, List.mem_append]
    right; left
    decide
  refine ⟨?_, hrne, ?_, ?_, ?_, ?_⟩
  · -- trim stability
    obtain ⟨c, t, hst⟩ := List.exists_cons_of_ne_nil hstemne
    have hheadq : (renameCandidate (splitFileName name).1 (splitFileName name).2 j).head?
        = some c := by
      unfold renameCandidate
      rw [hst]
      rfl
    have hnamehq : name.head? = some c := by
      rw [← happ, hst]
      rfl
    have hcws := trim_self_head_opt htrim hnamehq
    by_cases hext : (splitFileName name).2 = []
    · obtain ⟨y, ys, hstl⟩ :
        ∃ y ys, (splitFileName name).1 ++ " (".toList ++ natToJStr j = y :: ys := by
        rw [hst]
        exact ⟨c, _, rfl⟩
      have hlastq : (renameCandidate (splitFileName name).1 (splitFileName name).2 j).getLast?
          = some ')' := by
        unfold renameCandidate
        rw [hext, List.append_nil]
        exact List.getLast?_concat _
      exact jsTrim_eq_self_of_bounds_opt hheadq hcws hlastq (by decide)
    · obtain ⟨d, hd⟩ : ∃ d, (splitFileName name).2.getLast? = some d := by
        obtain ⟨y, ys, hy⟩ := List.exists_cons_of_ne_nil hext
        rw [hy]
        exact ⟨(y :: ys).getLast (by simp), List.getLast?_eq_getLast _ _⟩
      have hnamelq : name.getLast? = some d := by
        rw [← happ]
        exact getLast?_append_of_some hd
      have hdws := trim_self_getLast_opt htrim hnamelq
      have hlastq : (renameCandidate (splitFileName name).1 (splitFileName name).2 j).getLast?
          = some d := by
        unfold renameCandidate
        exact getLast?_append_of_some hd
      exact jsTrim_eq_self_of_bounds_opt hheadq hcws hlastq hdws
  · intro heq
    rw [heq] at hpar
    exact absurd hpar (by decide)
  · intro heq
    rw [heq] at hpar
    exact absurd hpar (by decide)
  · intro hc
    rcases hmem '/' hc with hin | h1 | h1 | h1 | ⟨d, hd, he⟩
    · exact hslash hin
    · exact absurd h1 (by decide)
    · exact absurd h1 (by decide)
    · exact absurd h1 (by decide)
    · exact (digitChar_props d hd).1 he.symm
  · intro hc
    rcases hmem '\\' hc with hin | h1 | h1 | h1 | ⟨d, hd, he⟩
    · exact hback hin
    · exact absurd h1 (by decide)
    · exact absurd h1 (by decide)
    · exact absurd h1 (by decide)
    · exact (digitChar_props d hd).2.1 he.symm

end Shell

theorem joinWith_ne_nil_of_good {segs : List JStr} (hne : segs ≠ [])
    (hgood : ∀ s ∈ segs, GoodSeg s) : joinWith ['/'] segs ≠ [] := by
  obtain ⟨s, ss, rfl⟩ := List.exists_cons_of_ne_nil hne
  have hs := (hgood s (List.mem_cons_self s ss)).2.1
  cases ss with
  | nil => simpa [joinWith] using hs
  | cons y ys =>
    simp only [joinWith]
    intro hc
    rw [List.append_eq_nil] at hc
    exact hs (List.append_eq_nil.mp hc.1).1

namespace Shell

/-- The file-name component of `splitUploadRelativePath` is either empty or
one of the clean segments produced by the path normalizer. -/
theorem splitUploadRelativePath_fileName (p : JStr) :
    (splitUploadRelativePath p).2 = [] ∨ GoodSeg (splitUploadRelativePath p).2 := by
  unfold splitUploadRelativePath
  simp only []
  have hnorm : normalizeUploadRelativePath p
      = joinWith ['/'] (Copyparty.normalizeSegments p) := rfl
  by_cases hsegs : Copyparty.normalizeSegments p = []
  · left
    rw [if_pos (by rw [hnorm, hsegs]; rfl)]
  · right
    have hgood := normalizeSegments_good p
    have hne := joinWith_ne_nil_of_good hsegs hgood
    rw [if_neg (by rw [hnorm]; exact hne)]
    have hsplit : splitOnChar '/' (normalizeUploadRelativePath p)
        = Copyparty.normalizeSegments p := by
      rw [hnorm, splitOnChar_joinWith '/' _ hsegs,
        flatMap_splitOnChar_of_good (fun s hs => (hgood s hs).2.2.2.2.1)]
    show GoodSeg ((splitOnChar '/' (normalizeUploadRelativePath p)).getLast?.getD [])
    rw [hsplit, List.getLast?_eq_getLast _ hsegs]
    exact hgood _ (List.getLast_mem hsegs)

/-- A non-empty trimmed source name is exactly the (already clean, already
trim-stable) file-name segment. -/
theorem sourceName_good {p : JStr} (h : jsTrim (splitUploadRelativePath p).2 ≠ []) :
    GoodSeg (jsTrim (splitUploadRelativePath p).2) := by
  rcases splitUploadRelativePath_fileName p with hnil | hgood
  · rw [hnil] at h
    exact absurd rfl h
  · rw [hgood.1]
    exact hgood

end Shell

theorem normalizePath_append_good {d s : JStr} (hs : GoodSeg s) :
    Copyparty.normalizePath (d ++ '/' :: s)
      = '/' :: joinWith ['/'] (Copyparty.normalizeSegments d ++ [s]) := by
  unfold Copyparty.normalizePath
  rw [normalizeSegments_append_good d hs]
  cases Copyparty.normalizeSegments d with
  | nil => rfl
  | cons a as => rfl

namespace Shell

/-- `joinNormalizedPaths` applied to clean leaf segments under one base is
injective in the leaf. -/
theorem joinNormalizedPaths_inj {d n1 n2 : JStr} (h1 : GoodSeg n1) (h2 : GoodSeg n2)
    (heq : joinNormalizedPaths d n1 = joinNormalizedPaths d n2) : n1 = n2 := by
  have e1 : joinNormalizedPaths d n1
      = '/' :: joinWith ['/'] (Copyparty.normalizeSegments d ++ [n1]) :=
    normalizePath_append_good h1
  have e2 : joinNormalizedPaths d n2
      = '/' :: joinWith ['/'] (Copyparty.normalizeSegments d ++ [n2]) :=
    normalizePath_append_good h2
  rw [e1, e2] at heq
  injection heq with _ heq2
  by_cases hS : Copyparty.normalizeSegments d = []
  · rw [hS] at heq2
    simpa [joinWith] using heq2
  · rw [joinWith_append_single _ _ _ hS, joinWith_append_single _ _ _ hS] at heq2
    exact List.append_cancel_left heq2

end Shell

theorem lookup_append_left {β : Type} {r : List (JStr × β)} {q : JStr} {v : β}
    (h : List.lookup q r = some v) (l : List (JStr × β)) :
    List.lookup q (r ++ l) = some v := by
  induction r with
  | nil => simp [List.lookup] at h
  | cons p rest ih =>
    obtain ⟨k, w⟩ := p
    rw [List.cons_append]
    by_cases hk : q = k
    · have hbeq : (q == k) = true := by rw [beq_iff_eq]; exact hk
      simp only [List.lookup, hbeq] at h ⊢
      exact h
    · have hbeq : (q == k) = false := by rw [beq_eq_false_iff_ne]; exact hk
      simp only [List.lookup, hbeq] at h ⊢
      exact ih h

namespace Shell

theorem getReservedNames_lookup_self (e r : List (JStr × List JStr)) (p : JStr) :
    (getReservedNames e r p).2.lookup p = some (getReservedNames e r p).1 := by
  unfold getReservedNames
  cases hl : r.lookup p with
  | some ex => simpa using hl
  | none =>
    simp only []
    exact lookup_append_single_self r _ hl

theorem getReservedNames_lookup_preserved {e r : List (JStr × List JStr)} {p q : JStr}
    {rs : List JStr} (h : r.lookup q = some rs) :
    (getReservedNames e r p).2.lookup q = some rs := by
  unfold getReservedNames
  cases hl : r.lookup p with
  | some ex => simpa using h
  | none => exact lookup_append_left h _

theorem getReservedNames_of_lookup_some {e r : List (JStr × List JStr)} {p : JStr}
    {rs : List JStr} (h : r.lookup p = some rs) :
    (getReservedNames e r p).1 = rs := by
  unfold getReservedNames
  rw [h]

theorem updateReserved_lookup_self {r : List (JStr × List JStr)} {p : JStr}
    (names : List JStr) (h : (r.lookup p).isSome) :
    (updateReserved r p names).lookup p = some names := by
  unfold updateReserved
  rw [lookup_map_replace_self, if_pos h]

theorem updateReserved_lookup_ne {r : List (JStr × List JStr)} {p q : JStr}
    (names : List JStr) (h : q ≠ p) :
    (updateReserved r p names).lookup q = r.lookup q := by
  unfold updateReserved
  exact lookup_map_replace_ne r names h

/-- The target-name resolution never hands out a reserved name for a
non-replace item, always reserves the name it hands out, and only grows
the reserved set. -/
theorem resolveTarget_spec (strategy : ConflictStrategy) (sourceName : JStr)
    (reservedNames : List JStr) (eos sd : Bool)
    (hskip : strategy = ConflictStrategy.skip → sourceName ∉ reservedNames) :
    ∀ t, t = resolveTarget strategy sourceName reservedNames
        (decide (sourceName ∈ reservedNames)) eos sd →
      (t.2.2 = false → t.1 ∉ reservedNames) ∧ t.1 ∈ t.2.1 ∧ reservedNames ⊆ t.2.1 := by
  intro t ht
  have hspec := makeUniqueFileName_spec sourceName reservedNames
  cases strategy with
  | rename =>
    unfold resolveTarget at ht
    subst ht
    refine ⟨fun _ => hspec.1, ?_, ?_⟩
    · show (makeUniqueFileName sourceName reservedNames).1
        ∈ (makeUniqueFileName sourceName reservedNames).2
      rw [hspec.2]
      exact self_mem_addName
    · show reservedNames ⊆ (makeUniqueFileName sourceName reservedNames).2
      rw [hspec.2]
      exact subset_addName
  | replace =>
    unfold resolveTarget at ht
    by_cases h1 : (eos && sd) = true
    · rw [if_pos h1] at ht
      subst ht
      refine ⟨?_, self_mem_addName, subset_addName⟩
      intro hfalse
      simp at hfalse
    · rw [if_neg h1] at ht
      by_cases hmem : sourceName ∈ reservedNames
      · rw [if_pos (by simpa using hmem)] at ht
        subst ht
        refine ⟨fun _ => hspec.1, ?_, ?_⟩
        · show (makeUniqueFileName sourceName reservedNames).1
            ∈ (makeUniqueFileName sourceName reservedNames).2
          rw [hspec.2]
          exact self_mem_addName
        · show reservedNames ⊆ (makeUniqueFileName sourceName reservedNames).2
          rw [hspec.2]
          exact subset_addName
      · rw [if_neg (by simpa using hmem)] at ht
        subst ht
        exact ⟨fun _ => hmem, self_mem_addName, subset_addName⟩
  | skip =>
    unfold resolveTarget at ht
    subst ht
    exact ⟨fun _ => hskip rfl, self_mem_addName, subset_addName⟩

/-- The resolved target name of a clean source name is clean. -/
theorem resolveTarget_good {strategy : ConflictStrategy} {sourceName : JStr}
    {reservedNames : List JStr} {hc eos sd : Bool} (h : GoodSeg sourceName) :
    GoodSeg (resolveTarget strategy sourceName reservedNames hc eos sd).1 := by
  have hmk : ∀ r : List JStr, GoodSeg (makeUniqueFileName sourceName r).1 := by
    intro r
    rcases makeUniqueFileName_shape sourceName r with he | ⟨j, _, he⟩
    · rw [he]
      exact h
    · rw [he]
      exact renameCandidate_good h j
  cases strategy with
  | rename => exact hmk reservedNames
  | replace =>
    unfold resolveTarget
    by_cases h1 : (eos && sd) = true
    · rw [if_pos h1]
      exact h
    · rw [if_neg h1]
      by_cases h2 : hc = true
      · rw [if_pos h2]
        exact hmk reservedNames
      · rw [if_neg h2]
        exact h
  | skip => exact h

end Shell

namespace Shell

/-- Two enqueued items with the same destination, neither replacing an
existing file, carry different target names. -/
def DistinctTargets (a b : TransferItemE) : Prop :=
  a.destinationPath = b.destinationPath → a.replaceExisting = false →
    b.replaceExisting = false → a.targetName ≠ b.targetName

/-- The loop invariant of `enqueueUploads`: every non-replace item's target
name is registered in its destination's reserved set, enqueued items have
pairwise-distinct non-replace names per destination, and every target name
is a clean segment whose target path is the join with its destination. -/
def EnqueueInv (st : EnqueueState) : Prop :=
  (∀ it ∈ st.items, it.replaceExisting = false →
      ∃ rs, st.reservedNamesByDestination.lookup it.destinationPath = some rs
        ∧ it.targetName ∈ rs)
  ∧ List.Pairwise DistinctTargets st.items
  ∧ ∀ it ∈ st.items, GoodSeg it.targetName
      ∧ it.targetPath = joinNormalizedPaths it.destinationPath it.targetName

theorem enqueueResolved_inv (strategy : ConflictStrategy)
    (e : List (JStr × List JStr)) (uf : JStr → JStr)
    {st : EnqueueState} (hinv : EnqueueInv st) (idx : Nat) (size : Int)
    (relPath : JStr) {sourceName : JStr} (rd : JStr) (sd : Bool)
    (hgood : GoodSeg sourceName) :
    EnqueueInv (enqueueResolved strategy e uf st idx size relPath sourceName rd sd) := by
  obtain ⟨hA, hB, hC⟩ := hinv
  unfold enqueueResolved
  simp only []
  by_cases hbr : sourceName ∈ (getReservedNames e st.reservedNamesByDestination rd).1
      ∧ strategy = ConflictStrategy.skip
  · rw [if_pos hbr]
    refine ⟨?_, hB, hC⟩
    intro it hit hrep
    obtain ⟨rs, hrs, hm⟩ := hA it hit hrep
    exact ⟨rs, getReservedNames_lookup_preserved hrs, hm⟩
  · rw [if_neg hbr]
    have hsk : strategy = ConflictStrategy.skip →
        sourceName ∉ (getReservedNames e st.reservedNamesByDestination rd).1 :=
      fun hs hm => hbr ⟨hm, hs⟩
    obtain ⟨hfree, hmemt, hsub⟩ := resolveTarget_spec strategy sourceName
      (getReservedNames e st.reservedNamesByDestination rd).1
      (decide (sourceName ∈ (List.lookup rd e).getD [])) sd hsk _ rfl
    refine ⟨?_, ?_, ?_⟩
    · intro it hit hrep
      rcases List.mem_append.mp hit with hold | hnew
      · obtain ⟨rs, hrs, hm⟩ := hA it hold hrep
        by_cases hd : it.destinationPath = rd
        · rw [hd] at hrs ⊢
          have hr1 : (getReservedNames e st.reservedNamesByDestination rd).1 = rs :=
            getReservedNames_of_lookup_some hrs
          refine ⟨_, updateReserved_lookup_self _ ?_, hsub (hr1 ▸ hm)⟩
          rw [getReservedNames_lookup_self]
          rfl
        · refine ⟨rs, ?_, hm⟩
          rw [updateReserved_lookup_ne _ hd]
          exact getReservedNames_lookup_preserved hrs
      · have hb1 := List.mem_singleton.mp hnew
        subst hb1
        refine ⟨_, updateReserved_lookup_self _ ?_, hmemt⟩
        rw [getReservedNames_lookup_self]
        rfl
    · rw [List.pairwise_append]
      refine ⟨hB, List.pairwise_singleton _ _, ?_⟩
      intro a ha b hb
      have hbnew := List.mem_singleton.mp hb
      subst hbnew
      intro hdest hra hrb
      obtain ⟨rs, hrs, hm⟩ := hA a ha hra
      have hd2 : a.destinationPath = rd := hdest
      rw [hd2] at hrs
      have hr1 : (getReservedNames e st.reservedNamesByDestination rd).1 = rs :=
        getReservedNames_of_lookup_some hrs
      intro he
      have he2 : a.targetName
          = (resolveTarget strategy sourceName
              (getReservedNames e st.reservedNamesByDestination rd).1
              (decide (sourceName ∈ (getReservedNames e st.reservedNamesByDestination rd).1))
              (decide (sourceName ∈ (List.lookup rd e).getD [])) sd).1 := he
      rw [he2] at hm
      rw [← hr1] at hm
      exact hfree hrb hm
    · intro it hit
      rcases List.mem_append.mp hit with hold | hnew
      · exact hC it hold
      · have hb1 := List.mem_singleton.mp hnew
        subst hb1
        exact ⟨resolveTarget_good hgood, rfl⟩

theorem enqueueStep_inv (strategy : ConflictStrategy) (nd : JStr)
    (e : List (JStr × List JStr)) (uf : JStr → JStr)
    {st : EnqueueState} (hinv : EnqueueInv st) (idx : Nat) (c : UploadCandidate) :
    EnqueueInv (enqueueStep strategy nd e uf st idx c) := by
  unfold enqueueStep
  simp only []
  by_cases hsn :
      jsTrim (splitUploadRelativePath (normalizeUploadRelativePath c.relativePath)).2 = []
  · rw [if_pos hsn]
    exact hinv
  · rw [if_neg hsn]
    exact enqueueResolved_inv strategy e uf hinv idx c.fileSize _ _ _ (sourceName_good hsn)

theorem foldl_enqueueStep_inv (strategy : ConflictStrategy) (nd : JStr)
    (e : List (JStr × List JStr)) (uf : JStr → JStr)
    (l : List (Nat × UploadCandidate)) :
    ∀ st : EnqueueState, EnqueueInv st →
      EnqueueInv (l.foldl (fun st ic => enqueueStep strategy nd e uf st ic.1 ic.2) st) := by
  induction l with
  | nil =>
    intro st h
    exact h
  | cons ic rest ih =>
    intro st h
    rw [List.foldl_cons]
    exact ih _ (enqueueStep_inv strategy nd e uf h ic.1 ic.2)

end Shell

/-- C10: within one `enqueueUploads` call, under every strategy, any two
enqueued items that share a destination directory and both carry
`replaceExisting = false` have distinct target names, and hence distinct
target paths: each non-replace target name is taken fresh from (and then
added to) the destination's reserved-name set, which is seeded from the
known listing, so duplicate same-named candidates are either dropped or
renamed before enqueueing. -/
theorem enqueueUploads_distinct_targets (strategy : Shell.ConflictStrategy)
    (destinationPath : JStr) (existingFileNames : List JStr)
    (uploadUrlFor : JStr → JStr) (candidates : List Shell.UploadCandidate) :
    List.Pairwise
      (fun a b => a.destinationPath = b.destinationPath →
        a.replaceExisting = false → b.replaceExisting = false →
        a.targetName ≠ b.targetName ∧ a.targetPath ≠ b.targetPath)
      (Shell.enqueueUploads strategy destinationPath existingFileNames
        uploadUrlFor candidates) := by
  have hinv0 : Shell.EnqueueInv ⟨[], []⟩ := by
    refine ⟨?_, List.Pairwise.nil, ?_⟩ <;> intro it hit <;> simp at hit
  have hinv := Shell.foldl_enqueueStep_inv strategy
    (Shell.normalizeInventoryPath destinationPath)
    [(Shell.normalizeInventoryPath destinationPath, existingFileNames)]
    uploadUrlFor candidates.enum _ hinv0
  obtain ⟨_, hpair, hclean⟩ := hinv
  unfold Shell.enqueueUploads
  simp only []
  refine List.Pairwise.imp_of_mem ?_ hpair
  intro a b ha hb hR hdest hra hrb
  have hne := hR hdest hra hrb
  refine ⟨hne, ?_⟩
  intro hpe
  have hca := hclean a ha
  have hcb := hclean b hb
  rw [hca.2, hcb.2, hdest] at hpe
  exact hne (Shell.joinNormalizedPaths_inj hca.1 hcb.1 hpe)
